import Mathlib

/-!
Shallow embedding of `src/extract_docs_improved.py`, read with exact Python
semantics.

Every backslash in the source file is doubled, and the embedding keeps the
resulting meaning literally:

* The pipeline's joins and splits (`'\\n'.join`, `.split('\\n')` at lines
  30, 45, 103, 107, 115, 127, 161, 176 and 219) use the two-character
  literal text backslash-`n`, written `litNl` below, while `str.splitlines`
  (lines 16, 33 and 158) splits real newline characters.
* Line 55 replaces an inline-code span by the replacement template `\\1`,
  which is the literal two-character text backslash-`1`, not the captured
  group.
* Line 61's pattern parses as a literal backslash, the character class
  holding backslash, `[`, `.`, `*` and `?`, a literal backslash and a
  literal `]` — a fixed four-character match.
* Line 79's pattern needs a literal backslash then a run of the letter `s`
  between the marker and the quoted name.
* Line 85's character class excludes the backslash, the letter `s` and the
  closing parenthesis — not whitespace.
* Lines 91 and 97 hold invalid regular expressions (their only `(` sits
  inside a character class, so the closing parenthesis is unbalanced);
  `re.sub` raises, the surrounding `except` swallows the error, and the two
  passes leave the content unchanged.
* Line 165's pattern matches a literal backslash followed by three or more
  letter-`n` characters; its replacement template `'\\n\\n'` holds two
  backslash-`n` escapes, which `re.sub` replacement processing turns into
  two real newline characters.
* Line 186's membership string `'|\\t -:'` holds the characters pipe,
  backslash, the letter `t`, space, dash and colon (no tab).

Text is modelled as `List Char`.  `str.splitlines` is modelled as splitting
on the newline character (the rarer `\r`-style boundaries are not exercised
by any statement below).  Regex passes are explicit left-to-right scanners
with the matching discipline of their pattern (greedy or minimal spans,
one-character advance on a failed match), written in fuel-passing style so
they reduce in the kernel; the wrapper passes `length + 1` fuel, which
always suffices since every step shortens the scanned list, and exhausted
fuel returns the rest unchanged so the `forall fuel` lemmas hold uniformly.
-/

/-- Python whitespace class for `str.strip` (ASCII range). -/
def isSpace (c : Char) : Bool :=
  c = ' ' || c = '\t' || c = '\n' || c = '\r' || c = Char.ofNat 11 || c = Char.ofNat 12

/-- Python `str.strip()`: drop leading and trailing whitespace. -/
def pyStrip (s : List Char) : List Char :=
  ((s.dropWhile isSpace).reverse.dropWhile isSpace).reverse

/-- Python `str.split(sep)` for a single-character separator.
`splitCh sep [] = [[]]`, matching `"".split(sep) == [""]`.  Used with the
newline character to model `str.splitlines`. -/
def splitCh (sep : Char) : List Char → List (List Char)
  | [] => [[]]
  | c :: rest =>
    if c = sep then [] :: splitCh sep rest
    else
      match splitCh sep rest with
      | [] => [[c]]
      | l :: ls => (c :: l) :: ls

/-- Python `sep.join(pieces)`. -/
def joinSep (sep : List Char) : List (List Char) → List Char
  | [] => []
  | [l] => l
  | l :: l2 :: ls => l ++ sep ++ joinSep sep (l2 :: ls)

/-- Real-newline split, modelling `str.splitlines` (lines 16, 33, 158). -/
def splitNl (s : List Char) : List (List Char) := splitCh '\n' s

/-- The two-character literal separator backslash-`n` written `'\\n'` in the
source: the string all pipeline joins and splits use. -/
def litNl : List Char := ['\\', 'n']

/-- Python `'\\n'.join(pieces)` (lines 30, 45, 107, 127, 161, 219). -/
def joinLit (ls : List (List Char)) : List Char := joinSep litNl ls

/-- Python `s.split('\\n')` (lines 103, 115, 176): split on the
two-character literal backslash-`n`, scanning left to right. -/
def splitLit : List Char → List (List Char)
  | [] => [[]]
  | [c] => [[c]]
  | c :: d :: rest =>
    if c = '\\' && d = 'n' then [] :: splitLit rest
    else
      match splitLit (d :: rest) with
      | [] => [[c]]
      | l :: ls => (c :: l) :: ls

/-- Substring test (Python `pat in s`). -/
def isSubstr (pat : List Char) : List Char → Bool
  | [] => pat.isEmpty
  | c :: rest => pat.isPrefixOf (c :: rest) || isSubstr pat rest

/-!  ### The table formatter (`format_markdown_table`, lines 172-219)  -/

/-- The character substitution of `table_text.replace('|', ' ')`. -/
def replacePipe (c : Char) : Char := if c = '|' then ' ' else c

/-- Fallback result of the formatter
(`table_text.replace('|', ' ').strip()`, lines 192 and 217). -/
def tableFallback (t : List Char) : List Char := pyStrip (t.map replacePipe)

/-- Separator-row test of line 186: every character of the line belongs to
the membership string `'|\\t -:'`, i.e. is a pipe, backslash, letter `t`,
space, dash or colon. -/
def isSeparatorLine (l : List Char) : Bool :=
  l.all (fun c => c = '|' || c = '\\' || c = 't' || c = ' ' || c = '-' || c = ':')

/-- Line 176: the stripped, non-empty pieces of the stripped table text,
split on the literal backslash-`n`. -/
def tableLines (t : List Char) : List (List Char) :=
  ((splitLit (pyStrip t)).map pyStrip).filter (fun l => !l.isEmpty)

/-- Line 181: `lines[0] if lines else ""`. -/
def headerLineOf (t : List Char) : List Char := (tableLines t).headD []

/-- Lines 182-188: the non-separator, non-blank lines after the header. -/
def dataLinesOf (t : List Char) : List (List Char) :=
  ((tableLines t).drop 1).filter (fun l => !isSeparatorLine l && !(pyStrip l).isEmpty)

/-- Line 195: header labels, `header_line.split('|')[1:-1]` stripped and
filtered to the non-empty ones. -/
def headersOf (t : List Char) : List (List Char) :=
  ((((splitCh '|' (headerLineOf t)).drop 1).dropLast).map pyStrip).filter
    (fun l => !l.isEmpty)

/-- Line 203: cells of a data row, `line.split('|')[1:-1]` stripped
(empty cells retained). -/
def rowCells (line : List Char) : List (List Char) :=
  (((splitCh '|' line).drop 1).dropLast).map pyStrip

/-- The row separator `" | "` used by line 213. -/
def sepBar : List Char := [' ', '|', ' ']

/-- Lines 201-213 for a single data row: the emitted parts (`row_text`),
or `none` when the loop appends nothing for this row. -/
def rowParts (headers : List (List Char)) (line : List Char) :
    Option (List (List Char)) :=
  if line.head? = some '|' && line.getLast? = some '|' then
    let cells := rowCells line
    if !cells.isEmpty && cells.any (fun c => !c.isEmpty) then
      let parts := cells.enum.filterMap (fun ic =>
        if ic.2.isEmpty then none
        else if ic.1 < headers.length && !(headers.getD ic.1 []).isEmpty then
          some ((headers.getD ic.1 []) ++ (':' :: ' ' :: ic.2))
        else some ic.2)
      if parts.isEmpty then none else some parts
    else none
  else none

/-- The emitted part lists of all data rows, in order. -/
def formattedRowsOf (t : List Char) : List (List (List Char)) :=
  (dataLinesOf t).filterMap (rowParts (headersOf t))

/-- `formatted_lines` of lines 198-213: each row's parts joined by `" | "`. -/
def formattedLinesOf (t : List Char) : List (List Char) :=
  (formattedRowsOf t).map (joinSep sepBar)

/-- `format_markdown_table` (lines 172-219); line 219 joins the formatted
rows with the literal backslash-`n`. -/
def format_markdown_table (t : List Char) : List Char :=
  if (tableLines t).length < 1 then []
  else if !((headerLineOf t).head? = some '|' : Bool) then tableFallback t
  else if (formattedLinesOf t).isEmpty then tableFallback t
  else joinLit (formattedLinesOf t)

/-!  ### The emission filter of `process_documentation` (line 244)  -/

/-- Line 244: a record is appended when `clean_text` is truthy (non-empty)
and its stripped length exceeds 50. -/
def shouldEmit (clean : List Char) : Bool :=
  !clean.isEmpty && decide (50 < (pyStrip clean).length)

example : format_markdown_table (("| A | B |\\n| 1 | 2 |").toList)
    = ("A: 1 | B: 2").toList := by decide

example : format_markdown_table (("| A | B |\n| 1 | 2 |").toList)
    = ("A   B  \n  1   2").toList := by decide

example : shouldEmit (List.replicate 51 'a') = true := by decide

/-!  ### The normalization pipeline (`extract_text_from_markdown`, lines 8-169)  -/

/-- Pass 1, lines 16-30: frontmatter removal.  `splitlines` splits real
newlines; when the first line strips to `---` and a later line strips to
`---`, the remaining lines are joined with the literal backslash-`n`
(line 30); otherwise the content is returned unchanged. -/
def stripFrontmatter (s : List Char) : List Char :=
  if pyStrip ((splitNl s).headD []) = ("---").toList then
    match ((splitNl s).drop 1).findIdx? (fun l => pyStrip l = ("---").toList) with
    | some j => joinLit ((splitNl s).drop (j + 2))
    | none => s
  else s

/-- The metadata keys of line 41, each with the trailing colon. -/
def metaKeys : List (List Char) :=
  [("title:").toList, ("description:").toList, ("contentType:").toList,
   ("tags:").toList, ("hide:").toList, ("aliases:").toList,
   ("priority:").toList, ("redirect_from:").toList]

/-- The Notion URL prefix of line 39. -/
def notionMark : List Char := ("https://www.notion.so/n8n/Frontmatter-").toList

/-- Line filter of lines 36-42. -/
def isMetaLine (l : List Char) : Bool :=
  notionMark.isPrefixOf (pyStrip l) ||
    metaKeys.any (fun k => k.isPrefixOf (pyStrip l))

/-- Pass 2, lines 33-45: drop metadata lines.  `splitlines` splits real
newlines; the kept lines are joined with the literal backslash-`n`. -/
def stripMetaLines (s : List Char) : List Char :=
  joinLit ((splitNl s).filter (fun l => !isMetaLine l))

/-- Index of the first occurrence of `pat` in `s`, if any. -/
def findSub (pat : List Char) : List Char → Option Nat
  | [] => if pat.isEmpty then some 0 else none
  | c :: rest =>
    if pat.isPrefixOf (c :: rest) then some 0
    else (findSub pat rest).map (· + 1)

/-- Index of the first occurrence of `pat` in `s` before any real newline
(for patterns without `re.DOTALL`, whose `.` does not match `\n`). -/
def findOnLine (pat : List Char) : List Char → Option Nat
  | [] => if pat.isEmpty then some 0 else none
  | c :: rest =>
    if pat.isPrefixOf (c :: rest) then some 0
    else if c = '\n' then none
    else (findOnLine pat rest).map (· + 1)

/-- The three-backquote fence marker. -/
def fenceMark : List Char := [Char.ofNat 96, Char.ofNat 96, Char.ofNat 96]

/-- Pass 3 scanner, line 49: remove minimal spans between triple-backquote
markers (DOTALL: spans may cross real newlines). -/
def fencesGo : Nat → List Char → List Char
  | 0, s => s
  | _ + 1, [] => []
  | fuel + 1, c :: rest =>
    if fenceMark.isPrefixOf (c :: rest) then
      match findSub fenceMark (rest.drop 2) with
      | some j => fencesGo fuel ((rest.drop 2).drop (j + 3))
      | none => c :: fencesGo fuel rest
    else c :: fencesGo fuel rest

def removeCodeFences (s : List Char) : List Char := fencesGo (s.length + 1) s

/-- The backquote character. -/
def backquote : Char := Char.ofNat 96

/-- Pass 4 scanner, line 55: each span `` `x` `` with non-empty inner text
is replaced by the replacement template `\\1`, i.e. the literal
two-character text backslash-`1` (the doubled backslash makes the
template an escaped literal, not a group reference). -/
def inlineCodeGo : Nat → List Char → List Char
  | 0, s => s
  | _ + 1, [] => []
  | fuel + 1, c :: rest =>
    if c = backquote then
      match rest.dropWhile (fun d => !(d = backquote)) with
      | [] => c :: inlineCodeGo fuel rest
      | _ :: t2 =>
        if (rest.takeWhile (fun d => !(d = backquote))).isEmpty then
          c :: inlineCodeGo fuel rest
        else '\\' :: '1' :: inlineCodeGo fuel t2
    else c :: inlineCodeGo fuel rest

def unwrapInlineCode (s : List Char) : List Char := inlineCodeGo (s.length + 1) s

/-- The character class of line 61's pattern `\\[\\[.*?\\]\\]`, which parses
as literal backslash, class `[\\[.*?]`, literal backslash, literal `]`:
the class holds backslash, `[`, `.`, `*` and `?`. -/
def macroClassChar (c : Char) : Bool :=
  c = '\\' || c = '[' || c = '.' || c = '*' || c = '?'

/-- Pass 5 scanner, line 61: remove each four-character occurrence of
backslash, class character, backslash, `]`. -/
def macrosGo : Nat → List Char → List Char
  | 0, s => s
  | _ + 1, [] => []
  | fuel + 1, c :: rest =>
    match rest with
    | d :: e :: f :: t =>
      if c = '\\' && macroClassChar d && e = '\\' && f = ']' then
        macrosGo fuel t
      else c :: macrosGo fuel rest
    | _ => c :: macrosGo fuel rest

def removeMacros (s : List Char) : List Char := macrosGo (s.length + 1) s

/-- Pass 6 scanner, line 67: remove minimal spans between `///` markers
(DOTALL). -/
def serviceGo : Nat → List Char → List Char
  | 0, s => s
  | _ + 1, [] => []
  | fuel + 1, c :: rest =>
    if (['/', '/', '/'] : List Char).isPrefixOf (c :: rest) then
      match findSub ['/', '/', '/'] (rest.drop 2) with
      | some j => serviceGo fuel ((rest.drop 2).drop (j + 3))
      | none => c :: serviceGo fuel rest
    else c :: serviceGo fuel rest

def removeServiceBlocks (s : List Char) : List Char := serviceGo (s.length + 1) s

/-- Pass 7 scanner, line 73: remove minimal `<!-- ... -->` spans (DOTALL). -/
def commentsGo : Nat → List Char → List Char
  | 0, s => s
  | _ + 1, [] => []
  | fuel + 1, c :: rest =>
    if (("<!--").toList).isPrefixOf (c :: rest) then
      match findSub (("-->").toList) (rest.drop 3) with
      | some j => commentsGo fuel ((rest.drop 3).drop (j + 3))
      | none => c :: commentsGo fuel rest
    else c :: commentsGo fuel rest

def removeHtmlComments (s : List Char) : List Char := commentsGo (s.length + 1) s

/-- Pass 8 scanner, line 79: the pattern `--8<--\\s*".*?"` needs the marker
`--8<--`, then a literal backslash, then a run of the letter `s`, then a
double-quoted minimal span (its `.` does not cross real newlines). -/
def snippetsGo : Nat → List Char → List Char
  | 0, s => s
  | _ + 1, [] => []
  | fuel + 1, c :: rest =>
    if (("--8<--").toList).isPrefixOf (c :: rest) then
      match rest.drop 5 with
      | b :: t =>
        if b = '\\' then
          match t.dropWhile (fun x => x = 's') with
          | q :: t3 =>
            if q = '"' then
              match findOnLine ['"'] t3 with
              | some j => snippetsGo fuel (t3.drop (j + 1))
              | none => c :: snippetsGo fuel rest
            else c :: snippetsGo fuel rest
          | [] => c :: snippetsGo fuel rest
        else c :: snippetsGo fuel rest
      | [] => c :: snippetsGo fuel rest
    else c :: snippetsGo fuel rest

def removeSnippets (s : List Char) : List Char := snippetsGo (s.length + 1) s

/-- Character class `[^\\s\\)]` of line 85: everything except the backslash,
the letter `s` and the closing parenthesis. -/
def urlChar (c : Char) : Bool := !(c = '\\') && !(c = 's') && !(c = ')')

/-- Pass 9 scanner, line 85: remove `http://` or `https://` plus a greedy
(possibly empty) run of `urlChar` characters.  Because the class excludes
only the backslash, the letter `s` and `)` — not whitespace — a removed
URL body can run across spaces and newlines. -/
def urlsGo : Nat → List Char → List Char
  | 0, s => s
  | _ + 1, [] => []
  | fuel + 1, c :: rest =>
    if (("http://").toList).isPrefixOf (c :: rest) then
      urlsGo fuel ((rest.drop 6).dropWhile urlChar)
    else if (("https://").toList).isPrefixOf (c :: rest) then
      urlsGo fuel ((rest.drop 7).dropWhile urlChar)
    else c :: urlsGo fuel rest

def removeUrls (s : List Char) : List Char := urlsGo (s.length + 1) s

/-- Pass 10, lines 89-93: the raw pattern of line 91,
`\\[([^\\]]*)\\]\\([^\\)]*\\)`, is an invalid regular expression — its only
`(` sits inside the character class `[^\\]`, so the later `)` is an
unbalanced parenthesis.  `re.sub` raises `re.error`, the `except` of
line 92 swallows it, and the pass leaves the content unchanged. -/
def unwrapMdLinks (s : List Char) : List Char := s

/-- Pass 11, lines 95-99: the raw pattern of line 97 is likewise an invalid
regular expression (unbalanced parenthesis), so this pass is also the
identity. -/
def unwrapRefLinks (s : List Char) : List Char := s

/-- Line 104 test: trimmed line starts with `[` and contains `]: `. -/
def isLinkDefLine (l : List Char) : Bool :=
  (pyStrip l).head? = some '[' && isSubstr (']' :: ':' :: [' ']) l

/-- Pass 12, lines 101-107: drop link-definition lines.  Both the split of
line 103 and the join of line 107 use the literal backslash-`n`. -/
def dropLinkDefLines (s : List Char) : List Char :=
  joinLit ((splitLit s).filter (fun l => !isLinkDefLine l))

/-- Table-block membership test of lines 118/122: trimmed line starts
with `|`. -/
def pipeLine (l : List Char) : Bool := (pyStrip l).head? = some '|'

/-- The placeholder token `__TABLE_PLACEHOLDER_{k}__` of line 128. -/
def placeholderTok (k : Nat) : List Char :=
  ("__TABLE_PLACEHOLDER_").toList ++ (Nat.toDigits 10 k) ++ ("__").toList

/-- Python `s.replace(pat, rep, 1)`: replace the first occurrence only. -/
def replaceFirstAux (pat rep : List Char) : Nat → List Char → List Char
  | 0, s => s
  | _ + 1, [] => []
  | fuel + 1, c :: rest =>
    if pat.isPrefixOf (c :: rest) then rep ++ (c :: rest).drop pat.length
    else c :: replaceFirstAux pat rep fuel rest

def replaceFirst (pat rep s : List Char) : List Char :=
  if pat.isEmpty then rep ++ s else replaceFirstAux pat rep (s.length + 1) s

/-- Python `s.replace(pat, rep)` for non-empty `pat`: replace every
occurrence, scanning left to right. -/
def replaceAllGo (pat rep : List Char) : Nat → List Char → List Char
  | 0, s => s
  | _ + 1, [] => []
  | fuel + 1, c :: rest =>
    if pat.isPrefixOf (c :: rest) then
      rep ++ replaceAllGo pat rep fuel ((c :: rest).drop pat.length)
    else c :: replaceAllGo pat rep fuel rest

def replaceAllSub (pat rep s : List Char) : List Char :=
  if pat.isEmpty then s else replaceAllGo pat rep (s.length + 1) s

/-- Pass 13, lines 111-137: the `while` loop over the literal-backslash-`n`
pieces of the content.  State: piece list still to scan, running text,
accumulated `(placeholder, formatted_table)` pairs in insertion order.
For each maximal run of pipe lines the block text is their
literal-backslash-`n` join (line 127); the placeholder ordinal is the
current mapping size (line 128), and the first occurrence of the block
text in the running text is substituted (line 133).  Fuel is the piece
count. -/
def scanTablesGo : Nat → List (List Char) → List Char →
    List (List Char × List Char) → List Char × List (List Char × List Char)
  | 0, _, text, acc => (text, acc)
  | _ + 1, [], text, acc => (text, acc)
  | fuel + 1, l :: rest, text, acc =>
    if pipeLine l then
      let block := l :: rest.takeWhile pipeLine
      let text' := replaceFirst (joinLit block) (placeholderTok acc.length) text
      scanTablesGo fuel (rest.dropWhile pipeLine) text'
        (acc ++ [(placeholderTok acc.length, format_markdown_table (joinLit block))])
    else
      scanTablesGo fuel rest text acc

/-- Pass 13 entry: split on the literal backslash-`n` (line 115) and run
the table scan over the pieces. -/
def extractTables (s : List Char) : List Char × List (List Char × List Char) :=
  scanTablesGo (splitLit s).length (splitLit s) s []

/-- Pass 14, lines 152-154: replace every occurrence of each placeholder,
in insertion order. -/
def restorePlaceholders (pairs : List (List Char × List Char))
    (text : List Char) : List Char :=
  pairs.foldl (fun t p => replaceAllSub p.1 p.2 t) text

/-- Pass 15 scanner, line 165: the raw pattern `\\n{3,}` matches a literal
backslash followed by a greedy run of three or more letter-`n` characters;
the replacement template `'\\n\\n'` holds two backslash-`n` escapes, which
`re.sub` template processing converts to two real newline characters
(in Python, `re.sub(r'\\n{3,}', '\\n\\n', 'a \\nnnb')` yields the string
`a`, space, newline, newline, `b`). -/
def collapseGo : Nat → List Char → List Char
  | 0, s => s
  | _ + 1, [] => []
  | fuel + 1, c :: rest =>
    if c = '\\' && decide (3 ≤ (rest.takeWhile (fun x => x = 'n')).length) then
      '\n' :: '\n' :: collapseGo fuel (rest.dropWhile (fun x => x = 'n'))
    else c :: collapseGo fuel rest

def collapseNewlines (s : List Char) : List Char := collapseGo (s.length + 1) s

/-- Pass 15, lines 156-169: strip each real-newline line, drop blank ones,
join with the literal backslash-`n` (line 161), collapse
backslash-`nnn...` runs, and strip the result. -/
def finalCleanup (text : List Char) : List Char :=
  pyStrip (collapseNewlines (joinLit
    (((splitNl text).map pyStrip).filter (fun l => !l.isEmpty))))

/-- The whole pipeline of `extract_text_from_markdown`, parameterized by
the Markdown-to-HTML-to-text conversion of lines 139-150 (external
`markdown` + `BeautifulSoup` code). -/
def normalizeDoc (render : List Char → List Char) (s : List Char) : List Char :=
  let s1 := stripMetaLines (stripFrontmatter s)
  let s2 := removeUrls (removeSnippets (removeHtmlComments (removeServiceBlocks
    (removeMacros (unwrapInlineCode (removeCodeFences s1))))))
  let s3 := dropLinkDefLines (unwrapRefLinks (unwrapMdLinks s2))
  finalCleanup (restorePlaceholders (extractTables s3).2 (render (extractTables s3).1))

/-- Modelled from the spec: the Markdown-to-HTML-to-text step of
lines 139-150 runs external library code (`markdown.markdown` and
`BeautifulSoup.get_text`), which is not part of this repository.  The spec
describes it as extracting the visible text; it is modelled here as the
identity, and every concrete statement below applies it only to inputs
free of Markdown or HTML markup, where visible-text extraction returns the
text unchanged. -/
def mdRender : List Char → List Char := id

/-- `extract_text_from_markdown` under the modelled render step. -/
def extract_text_from_markdown : List Char → List Char := normalizeDoc mdRender

/-- The well-formedness condition of claim C1 on the header line: it starts
and ends with a pipe and yields at least one non-empty header label. -/
def wfHeader (t : List Char) : Bool :=
  ((headerLineOf t).head? = some '|') && ((headerLineOf t).getLast? = some '|')
    && !(headersOf t).isEmpty

/-- Reference count of table blocks: the number of maximal runs of pipe
lines among the literal-backslash-`n` pieces of the content (same recursion
shape as the scan of pass 13). -/
def numBlocksGo : Nat → List (List Char) → Nat
  | 0, _ => 0
  | _ + 1, [] => 0
  | fuel + 1, l :: rest =>
    if pipeLine l then 1 + numBlocksGo fuel (rest.dropWhile pipeLine)
    else numBlocksGo fuel rest

def numBlocks (content : List Char) : Nat :=
  numBlocksGo (splitLit content).length (splitLit content)

/-- Characters of plain prose: letters, spaces, commas and question marks.
None of them is a marker any pass reacts to, and none is the backslash. -/
def plainChar (c : Char) : Bool :=
  c.isAlpha || c = ' ' || c = ',' || c = '?'

/-- Plain-line text: every real-newline line is non-empty, equal to its own
trimmed form, made of `plainChar` characters only, and does not start with
two letter-`n` characters (so the collapse pass of line 165 cannot fire
across the literal separators the pipeline inserts). -/
def PlainLines (x : List Char) : Prop :=
  ∀ l ∈ splitNl x, l ≠ [] ∧ pyStrip l = l ∧ (∀ c ∈ l, plainChar c = true) ∧
    (("nn").toList).isPrefixOf l = false

instance plainLinesDec (x : List Char) : Decidable (PlainLines x) :=
  List.decidableBAll _ (splitNl x)

/-!  ### General lemmas about the string model  -/

theorem splitCh_ne_nil (sep : Char) (s : List Char) : splitCh sep s ≠ [] := by
  induction s with
  | nil => simp [splitCh]
  | cons c rest ih =>
    simp only [splitCh]
    by_cases h : c = sep
    · simp [h]
    · simp only [if_neg h]
      cases hs : splitCh sep rest with
      | nil => simp
      | cons l ls => simp

theorem joinSep_splitCh (sep : Char) (s : List Char) :
    joinSep [sep] (splitCh sep s) = s := by
  induction s with
  | nil => rfl
  | cons c rest ih =>
    simp only [splitCh]
    by_cases h : c = sep
    · subst h
      simp only [if_pos rfl]
      cases hs : splitCh c rest with
      | nil => exact absurd hs (splitCh_ne_nil c rest)
      | cons l ls =>
        rw [hs] at ih
        simp [joinSep, ih]
    · simp only [if_neg h]
      cases hs : splitCh sep rest with
      | nil => exact absurd hs (splitCh_ne_nil sep rest)
      | cons l ls =>
        rw [hs] at ih
        cases ls with
        | nil => simpa [joinSep] using congrArg (c :: ·) ih
        | cons l2 ls2 =>
          simp only [joinSep] at ih ⊢
          simp [← ih]

theorem not_mem_of_mem_splitCh {sep : Char} {s l : List Char}
    (hl : l ∈ splitCh sep s) : sep ∉ l := by
  induction s generalizing l with
  | nil =>
    simp [splitCh] at hl
    simp [hl]
  | cons c rest ih =>
    simp only [splitCh] at hl
    by_cases h : c = sep
    · rw [if_pos h] at hl
      rcases List.mem_cons.1 hl with h1 | h1
      · simp [h1]
      · exact ih h1
    · rw [if_neg h] at hl
      cases hs : splitCh sep rest with
      | nil => exact absurd hs (splitCh_ne_nil sep rest)
      | cons l0 ls =>
        rw [hs] at hl
        rcases List.mem_cons.1 hl with h1 | h1
        · subst h1
          intro hm
          rcases List.mem_cons.1 hm with h2 | h2
          · exact h h2.symm
          · exact ih (hs ▸ List.mem_cons_self l0 ls) h2
        · exact ih (hs ▸ List.mem_cons.2 (Or.inr h1))

theorem splitCh_head_front (sep : Char) (s : List Char) {l0 : List Char}
    {ls : List (List Char)} (hs : splitCh sep s = l0 :: ls) : l0 <+: s := by
  induction s generalizing l0 ls with
  | nil =>
    simp [splitCh] at hs
    simp [hs.1]
  | cons c rest ih =>
    simp only [splitCh] at hs
    by_cases h : c = sep
    · rw [if_pos h] at hs
      cases hs
      simp
    · rw [if_neg h] at hs
      cases hr : splitCh sep rest with
      | nil => exact absurd hr (splitCh_ne_nil sep rest)
      | cons m ms =>
        rw [hr] at hs
        cases hs
        exact List.cons_prefix_cons.2 ⟨rfl, ih hr⟩

theorem infix_of_mem_splitCh {sep : Char} {s l : List Char}
    (hl : l ∈ splitCh sep s) : l <:+: s := by
  induction s generalizing l with
  | nil =>
    simp [splitCh] at hl
    simp [hl]
  | cons c rest ih =>
    simp only [splitCh] at hl
    by_cases h : c = sep
    · rw [if_pos h] at hl
      rcases List.mem_cons.1 hl with h1 | h1
      · simp [h1]
      · exact (ih h1).trans (List.infix_cons (List.infix_refl rest))
    · rw [if_neg h] at hl
      cases hs : splitCh sep rest with
      | nil => exact absurd hs (splitCh_ne_nil sep rest)
      | cons l0 ls =>
        rw [hs] at hl
        rcases List.mem_cons.1 hl with h1 | h1
        · subst h1
          refine List.IsPrefix.isInfix ?_
          refine @splitCh_head_front sep (c :: rest) (c :: l0) ls ?_
          simp only [splitCh, if_neg h, hs]
        · exact (ih (hs ▸ List.mem_cons.2 (Or.inr h1))).trans
            (List.infix_cons (List.infix_refl rest))

theorem mem_of_mem_splitCh {sep : Char} {s l : List Char} {c : Char}
    (hl : l ∈ splitCh sep s) (hc : c ∈ l) : c ∈ s :=
  (infix_of_mem_splitCh hl).sublist.mem hc

theorem splitCh_sep_free {sep : Char} : ∀ {l : List Char}, sep ∉ l →
    splitCh sep l = [l] := by
  intro l
  induction l with
  | nil => intro _; rfl
  | cons c r ih =>
    intro h
    have hc : ¬c = sep := fun hh => h (hh ▸ List.mem_cons_self c r)
    have hr : sep ∉ r := fun hh => h (List.mem_cons.2 (Or.inr hh))
    simp only [splitCh, if_neg hc, ih hr]

theorem pyStrip_prefix_dropWhile (s : List Char) :
    pyStrip s <+: s.dropWhile isSpace := by
  unfold pyStrip
  conv_rhs => rw [← List.reverse_reverse (s.dropWhile isSpace)]
  exact List.reverse_prefix.2 (List.dropWhile_suffix isSpace)

theorem pyStrip_part_of (s : List Char) : pyStrip s <:+: s :=
  (pyStrip_prefix_dropWhile s).isInfix.trans
    (List.dropWhile_suffix isSpace).isInfix

theorem pyStrip_sublist (s : List Char) : (pyStrip s).Sublist s :=
  (pyStrip_part_of s).sublist

theorem mem_pyStrip {c : Char} {s : List Char} (h : c ∈ pyStrip s) : c ∈ s :=
  (pyStrip_sublist s).mem h

theorem pyStrip_eq_nil_iff {s : List Char} :
    pyStrip s = [] ↔ ∀ c ∈ s, isSpace c = true := by
  unfold pyStrip
  constructor
  · intro h c hc
    by_contra hns
    have hd : s.dropWhile isSpace ≠ [] := by
      intro hnil
      rw [List.dropWhile_eq_nil_iff] at hnil
      exact hns (hnil c hc)
    rw [List.reverse_eq_nil_iff, List.dropWhile_eq_nil_iff] at h
    have hhead : isSpace ((s.dropWhile isSpace).head hd) = false :=
      List.head_dropWhile_not isSpace s hd
    have hmem : (s.dropWhile isSpace).head hd ∈ (s.dropWhile isSpace).reverse := by
      rw [List.mem_reverse]
      exact List.head_mem hd
    have := h _ hmem
    rw [hhead] at this
    exact Bool.false_ne_true this
  · intro h
    have : s.dropWhile isSpace = [] :=
      List.dropWhile_eq_nil_iff.2 (fun c hc => h c hc)
    simp [this]

theorem pyStrip_head?_not_space {s : List Char} {c : Char}
    (h : (pyStrip s).head? = some c) : isSpace c = false := by
  have hne : pyStrip s ≠ [] := by
    intro hnil
    rw [hnil] at h
    exact Option.noConfusion h
  have hd : s.dropWhile isSpace ≠ [] := by
    intro hnil
    have := pyStrip_prefix_dropWhile s
    rw [hnil, List.prefix_nil] at this
    exact hne this
  have heq : (pyStrip s).head? = (s.dropWhile isSpace).head? := by
    rcases pyStrip_prefix_dropWhile s with ⟨t, ht⟩
    rw [← ht, List.head?_append]
    cases hh : (pyStrip s).head? with
    | none => exact absurd (List.head?_eq_none_iff.1 hh) hne
    | some d => rfl
  rw [heq, List.head?_eq_head hd] at h
  cases h
  exact List.head_dropWhile_not isSpace s hd

theorem pyStrip_getLast?_not_space {s : List Char} {c : Char}
    (h : (pyStrip s).getLast? = some c) : isSpace c = false := by
  unfold pyStrip at h
  rw [List.getLast?_reverse] at h
  have hd : (s.dropWhile isSpace).reverse.dropWhile isSpace ≠ [] := by
    intro hnil
    rw [hnil] at h
    exact Option.noConfusion h
  rw [List.head?_eq_head hd] at h
  cases h
  exact List.head_dropWhile_not isSpace _ hd

theorem pyStrip_eq_self {s : List Char}
    (h1 : ∀ c, s.head? = some c → isSpace c = false)
    (h2 : ∀ c, s.getLast? = some c → isSpace c = false) : pyStrip s = s := by
  have hdw : s.dropWhile isSpace = s := by
    cases s with
    | nil => rfl
    | cons c r =>
      rw [List.dropWhile_cons, if_neg]
      rw [h1 c rfl]
      exact Bool.false_ne_true
  unfold pyStrip
  rw [hdw]
  have hdw2 : s.reverse.dropWhile isSpace = s.reverse := by
    cases hr : s.reverse with
    | nil => rfl
    | cons c r =>
      rw [List.dropWhile_cons, if_neg]
      have : s.getLast? = some c := by
        rw [← List.head?_reverse, hr, List.head?_cons]
      rw [h2 c this]
      exact Bool.false_ne_true
  rw [hdw2, List.reverse_reverse]

theorem pyStrip_idem (s : List Char) : pyStrip (pyStrip s) = pyStrip s :=
  pyStrip_eq_self (fun _ h => pyStrip_head?_not_space h)
    (fun _ h => pyStrip_getLast?_not_space h)

theorem isSubstr_true_iff {pat s : List Char} :
    isSubstr pat s = true ↔ pat <:+: s := by
  induction s with
  | nil =>
    simp only [isSubstr, List.isEmpty_iff]
    constructor
    · intro h; simp [h]
    · intro h; exact List.eq_nil_of_infix_nil h
  | cons c rest ih =>
    simp only [isSubstr, Bool.or_eq_true, List.isPrefixOf_iff_prefix, ih,
      List.infix_cons_iff]

theorem isSubstr_cons_parts {p : List Char} {c : Char} {rest : List Char}
    (h : isSubstr p (c :: rest) = false) :
    p.isPrefixOf (c :: rest) = false ∧ isSubstr p rest = false := by
  have h2 : (p.isPrefixOf (c :: rest) || isSubstr p rest) = false := h
  rw [Bool.or_eq_false_iff] at h2
  exact h2

theorem isPrefixOf_mem {p s : List Char} {c : Char}
    (h : p.isPrefixOf s = true) (hc : c ∈ p) : c ∈ s :=
  (List.isPrefixOf_iff_prefix.1 h).sublist.mem hc

theorem head?_mem {l : List Char} {c : Char} (h : l.head? = some c) : c ∈ l := by
  cases l with
  | nil => exact Option.noConfusion h
  | cons a r =>
    simp only [List.head?_cons, Option.some.injEq] at h
    rw [← h]
    exact List.mem_cons_self a r

theorem prefix_append_cases {M a b : List Char} (h : M <+: a ++ b) :
    M <+: a ∨ ∃ m2, M = a ++ m2 ∧ m2 <+: b := by
  induction a generalizing M with
  | nil => exact Or.inr ⟨M, by simpa using h⟩
  | cons x a2 ih =>
    cases M with
    | nil => exact Or.inl List.nil_prefix
    | cons y M2 =>
      rw [List.cons_append, List.cons_prefix_cons] at h
      rcases h with ⟨rfl, h2⟩
      rcases ih h2 with h3 | ⟨m2, rfl, h4⟩
      · exact Or.inl (List.cons_prefix_cons.2 ⟨rfl, h3⟩)
      · exact Or.inr ⟨m2, by simp, h4⟩

theorem infix_append_cases {M a b : List Char} (h : M <:+: a ++ b) :
    M <:+: a ∨ M <:+: b ∨
      ∃ m1 m2, M = m1 ++ m2 ∧ m1 ≠ [] ∧ m1 <:+ a ∧ m2 <+: b := by
  induction a generalizing M with
  | nil => exact Or.inr (Or.inl (by simpa using h))
  | cons x a2 ih =>
    rw [List.cons_append, List.infix_cons_iff] at h
    rcases h with h | h
    · cases M with
      | nil => exact Or.inl List.nil_infix
      | cons y M2 =>
        rw [List.cons_prefix_cons] at h
        rcases h with ⟨rfl, h2⟩
        rcases prefix_append_cases h2 with h3 | ⟨m2, rfl, h4⟩
        · exact Or.inl (List.cons_prefix_cons.2 ⟨rfl, h3⟩).isInfix
        · by_cases hm2 : m2 = []
          · subst hm2
            refine Or.inl ?_
            simp
          · exact Or.inr (Or.inr ⟨y :: a2, m2, by simp, by simp,
              List.suffix_refl _, h4⟩)
    · rcases ih h with h3 | h3 | ⟨m1, m2, rfl, hm1, hs, hp⟩
      · exact Or.inl (List.infix_cons h3)
      · exact Or.inr (Or.inl h3)
      · exact Or.inr (Or.inr ⟨m1, m2, rfl, hm1,
          hs.trans (List.suffix_cons x a2), hp⟩)

theorem mem_joinSep {c : Char} {sep : List Char} : ∀ {ls : List (List Char)},
    c ∈ joinSep sep ls → c ∈ sep ∨ ∃ l ∈ ls, c ∈ l := by
  intro ls
  induction ls with
  | nil => intro h; simp [joinSep] at h
  | cons l ls ih =>
    intro h
    cases ls with
    | nil =>
      refine Or.inr ⟨l, List.mem_cons_self l [], ?_⟩
      simpa [joinSep] using h
    | cons l2 ls2 =>
      simp only [joinSep, List.append_assoc, List.mem_append] at h
      rcases h with h | h | h
      · exact Or.inr ⟨l, List.mem_cons_self _ _, h⟩
      · exact Or.inl h
      · rcases ih h with h2 | ⟨m, hm, hc⟩
        · exact Or.inl h2
        · exact Or.inr ⟨m, List.mem_cons.2 (Or.inr hm), hc⟩

theorem mem_joinSep_of_mem {c : Char} {sep : List Char} {l : List Char} :
    ∀ {ls : List (List Char)}, l ∈ ls → c ∈ l → c ∈ joinSep sep ls := by
  intro ls
  induction ls with
  | nil => intro h _; simp at h
  | cons a as ih =>
    intro hl hc
    cases as with
    | nil =>
      rcases List.mem_cons.1 hl with rfl | h2
      · exact hc
      · simp at h2
    | cons a2 as2 =>
      rcases List.mem_cons.1 hl with rfl | h2
      · exact List.mem_append.2 (Or.inl (List.mem_append.2 (Or.inl hc)))
      · exact List.mem_append.2 (Or.inr (ih h2 hc))

theorem mem_splitCh_cover {sep c : Char} {s : List Char} (h : c ∈ s) :
    c = sep ∨ ∃ l ∈ splitCh sep s, c ∈ l := by
  rw [← joinSep_splitCh sep s] at h
  rcases mem_joinSep h with h1 | h2
  · exact Or.inl (by simpa using h1)
  · exact Or.inr h2

theorem joinSep_ne_nil {sep : List Char} {parts : List (List Char)}
    (h0 : parts ≠ []) (h1 : ∀ p ∈ parts, p ≠ []) :
    joinSep sep parts ≠ [] := by
  cases parts with
  | nil => exact absurd rfl h0
  | cons p ps =>
    cases ps with
    | nil => exact h1 p (List.mem_cons_self _ _)
    | cons p2 ps2 =>
      show ¬(p ++ sep ++ joinSep sep (p2 :: ps2)) = []
      simp [List.append_eq_nil, h1 p (List.mem_cons_self _ _)]

theorem headD_mem {ls : List (List Char)} (h : ls ≠ []) : ls.headD [] ∈ ls := by
  cases ls with
  | nil => exact absurd rfl h
  | cons l ls2 => exact List.mem_cons_self _ _

theorem enumSnd_mem {α : Type} {l : List α} {i : Nat} {a : α}
    (h : (i, a) ∈ l.enum) : a ∈ l ∧ i < l.length := by
  rw [List.mem_enum_iff_getElem?] at h
  have h2 : l[i]? = some a := h
  rcases List.getElem?_eq_some.1 h2 with ⟨hlt, hget⟩
  exact ⟨hget ▸ List.getElem_mem hlt, hlt⟩

/-!  ### Lemmas about the literal backslash-`n` separator  -/

theorem joinLit_cons_cons (l l2 : List Char) (ls : List (List Char)) :
    joinLit (l :: l2 :: ls) = l ++ '\\' :: 'n' :: joinLit (l2 :: ls) := by
  show l ++ litNl ++ joinSep litNl (l2 :: ls) = _
  rw [List.append_assoc]
  rfl

theorem joinLit_head? {l : List Char} {ls : List (List Char)} (h : l ≠ []) :
    (joinLit (l :: ls)).head? = l.head? := by
  cases ls with
  | nil => rfl
  | cons l2 ls2 =>
    rw [joinLit_cons_cons, List.head?_append]
    cases hl : l.head? with
    | none => exact absurd (List.head?_eq_none_iff.1 hl) h
    | some c => rfl

theorem joinLit_ne_nil {l : List Char} {ls : List (List Char)} (h : l ≠ []) :
    joinLit (l :: ls) ≠ [] := by
  cases ls with
  | nil => exact h
  | cons l2 ls2 =>
    rw [joinLit_cons_cons]
    intro hc
    rcases List.append_eq_nil.1 hc with ⟨h1, _⟩
    exact h h1

theorem joinLit_getLast? : ∀ {ls : List (List Char)}, ls ≠ [] →
    (∀ l ∈ ls, l ≠ []) →
    ∃ m ∈ ls, (joinLit ls).getLast? = m.getLast? := by
  intro ls
  induction ls with
  | nil => intro h; exact absurd rfl h
  | cons l ls ih =>
    intro _ hall
    cases ls with
    | nil => exact ⟨l, List.mem_cons_self _ _, rfl⟩
    | cons l2 ls2 =>
      rcases ih (by simp) (fun m hm => hall m (List.mem_cons.2 (Or.inr hm)))
        with ⟨m, hm, hlast⟩
      refine ⟨m, List.mem_cons.2 (Or.inr hm), ?_⟩
      rw [joinLit_cons_cons, List.getLast?_append]
      have hne : joinLit (l2 :: ls2) ≠ [] :=
        joinLit_ne_nil (hall l2 (by simp))
      have h2 : ('\\' :: 'n' :: joinLit (l2 :: ls2)).getLast?
          = (joinLit (l2 :: ls2)).getLast? := by
        rw [List.getLast?_cons, List.getLast?_cons]
        cases hj : (joinLit (l2 :: ls2)).getLast? with
        | none => exact absurd (List.getLast?_eq_none_iff.1 hj) hne
        | some d => simp [hj]
      rw [h2, hlast]
      cases hmv : m.getLast? with
      | none =>
        exact absurd (List.getLast?_eq_none_iff.1 hmv)
          (hall m (List.mem_cons.2 (Or.inr hm)))
      | some d => rfl

theorem joinLit_strip_fixed {ls : List (List Char)}
    (h : ∀ l ∈ ls, l ≠ [] ∧ pyStrip l = l) :
    pyStrip (joinLit ls) = joinLit ls := by
  cases ls with
  | nil => rfl
  | cons l ls2 =>
    refine pyStrip_eq_self ?_ ?_
    · intro c hc
      rw [joinLit_head? (h l (List.mem_cons_self _ _)).1] at hc
      have hl := (h l (List.mem_cons_self _ _)).2
      exact pyStrip_head?_not_space (hl.symm ▸ hc)
    · intro c hc
      rcases joinLit_getLast? (List.cons_ne_nil l ls2)
          (fun m hm => (h m hm).1) with ⟨m, hm, hlast⟩
      rw [hlast] at hc
      have hmfix := (h m hm).2
      exact pyStrip_getLast?_not_space (hmfix.symm ▸ hc)

theorem splitLit_ne_nil (s : List Char) : splitLit s ≠ [] := by
  match s with
  | [] => simp [splitLit]
  | [c] => simp [splitLit]
  | c :: d :: rest =>
    simp only [splitLit]
    by_cases h : (c = '\\' && d = 'n') = true
    · simp [h]
    · rw [if_neg h]
      cases hs : splitLit (d :: rest) with
      | nil => simp
      | cons l ls => simp

theorem splitLit_bs_free : ∀ {s : List Char}, '\\' ∉ s → splitLit s = [s] := by
  intro s
  induction s with
  | nil => intro _; rfl
  | cons c rest ih =>
    intro h
    cases rest with
    | nil => rfl
    | cons d r2 =>
      have hc : ¬c = '\\' := fun hh => h (hh ▸ List.mem_cons_self _ _)
      have hr : '\\' ∉ d :: r2 := fun hh => h (List.mem_cons.2 (Or.inr hh))
      show splitLit (c :: d :: r2) = _
      simp only [splitLit]
      rw [if_neg (by simp [hc]), ih hr]

theorem splitLit_append_sep : ∀ {l : List Char}, '\\' ∉ l →
    ∀ t, splitLit (l ++ '\\' :: 'n' :: t) = l :: splitLit t := by
  intro l
  induction l with
  | nil =>
    intro _ t
    show splitLit ('\\' :: 'n' :: t) = _
    simp [splitLit]
  | cons c r ih =>
    intro h t
    have hc : ¬c = '\\' := fun hh => h (hh ▸ List.mem_cons_self _ _)
    have hr : '\\' ∉ r := fun hh => h (List.mem_cons.2 (Or.inr hh))
    cases r with
    | nil =>
      show splitLit (c :: '\\' :: 'n' :: t) = _
      simp only [splitLit]
      rw [if_neg (by simp [hc])]
      simp
    | cons c2 r2 =>
      show splitLit (c :: c2 :: (r2 ++ '\\' :: 'n' :: t)) = _
      simp only [splitLit]
      rw [if_neg (by simp [hc])]
      have h2 := ih hr t
      rw [show (c2 :: r2) ++ '\\' :: 'n' :: t = c2 :: (r2 ++ '\\' :: 'n' :: t)
        from rfl] at h2
      rw [h2]

theorem splitLit_joinLit : ∀ {ls : List (List Char)}, ls ≠ [] →
    (∀ l ∈ ls, '\\' ∉ l) → splitLit (joinLit ls) = ls := by
  intro ls
  induction ls with
  | nil => intro h; exact absurd rfl h
  | cons l ls ih =>
    intro _ hall
    cases ls with
    | nil =>
      show splitLit (joinSep litNl [l]) = [l]
      exact splitLit_bs_free (hall l (List.mem_cons_self l []))
    | cons l2 ls2 =>
      have h1 : '\\' ∉ l := hall l (List.mem_cons_self l (l2 :: ls2))
      have h2 : ∀ m ∈ l2 :: ls2, '\\' ∉ m := fun m hm =>
        hall m (List.mem_cons.2 (Or.inr hm))
      rw [joinLit_cons_cons, splitLit_append_sep h1, ih (by simp) h2]

theorem joinLit_splitLit : ∀ (s : List Char), joinLit (splitLit s) = s := by
  intro s
  generalize hn : s.length = n
  induction n using Nat.strong_induction_on generalizing s with
  | _ n ih =>
    match s, hn with
    | [], _ => rfl
    | [c], _ => rfl
    | c :: d :: rest, hn =>
      simp only [splitLit]
      by_cases hg : (c = '\\' && d = 'n') = true
      · rw [if_pos hg]
        rw [Bool.and_eq_true] at hg
        obtain ⟨hc, hd⟩ := hg
        rw [decide_eq_true_iff] at hc hd
        cases hs : splitLit rest with
        | nil => exact absurd hs (splitLit_ne_nil rest)
        | cons m ms =>
          have hrec : joinLit (splitLit rest) = rest := by
            refine ih rest.length ?_ rest rfl
            simp only [List.length_cons] at hn
            omega
          rw [hs] at hrec
          rw [joinLit_cons_cons, hrec, hc, hd]
          rfl
      · rw [if_neg hg]
        have hrec : joinLit (splitLit (d :: rest)) = d :: rest := by
          refine ih (d :: rest).length ?_ (d :: rest) rfl
          simp only [List.length_cons] at hn ⊢
          omega
        cases hs : splitLit (d :: rest) with
        | nil => exact absurd hs (splitLit_ne_nil (d :: rest))
        | cons m ms =>
          rw [hs] at hrec
          cases ms with
          | nil =>
            show c :: m = c :: d :: rest
            have : m = d :: rest := hrec
            rw [this]
          | cons m2 ms2 =>
            rw [joinLit_cons_cons] at hrec ⊢
            show c :: (m ++ '\\' :: 'n' :: joinLit (m2 :: ms2)) = c :: d :: rest
            rw [hrec]

theorem mem_of_mem_splitLit {s l : List Char} (hl : l ∈ splitLit s) {c : Char}
    (hc : c ∈ l) : c ∈ s := by
  rw [← joinLit_splitLit s]
  exact mem_joinSep_of_mem hl hc

/-!  ### The collapse pass on literal-separator text  -/

theorem takeWhile_succ_head {p : Char → Bool} {l : List Char} {k : Nat}
    (h : k + 1 ≤ (l.takeWhile p).length) :
    ∃ a t, l = a :: t ∧ p a = true ∧ k ≤ (t.takeWhile p).length := by
  cases l with
  | nil => simp [List.takeWhile] at h
  | cons a t =>
    rw [List.takeWhile_cons] at h
    by_cases hp : p a = true
    · rw [if_pos hp] at h
      simp only [List.length_cons] at h
      exact ⟨a, t, rfl, hp, by omega⟩
    · rw [if_neg hp] at h
      simp at h

theorem takeWhile_three_n {rest : List Char}
    (h : 3 ≤ (rest.takeWhile (fun x => x = 'n')).length) :
    ∃ t, rest = 'n' :: 'n' :: 'n' :: t := by
  rcases takeWhile_succ_head h with ⟨a, t1, rfl, ha, h1⟩
  rcases takeWhile_succ_head h1 with ⟨b, t2, rfl, hb, h2⟩
  rcases takeWhile_succ_head h2 with ⟨c, t3, rfl, hc, _⟩
  rw [decide_eq_true_iff] at ha hb hc
  exact ⟨t3, by rw [ha, hb, hc]⟩

theorem collapseGo_id : ∀ (fuel : Nat) (s : List Char),
    isSubstr (['\\', 'n', 'n', 'n']) s = false → collapseGo fuel s = s := by
  intro fuel
  induction fuel with
  | zero => intro s _; rfl
  | succ fuel ih =>
    intro s hs
    cases s with
    | nil => rfl
    | cons c rest =>
      rcases isSubstr_cons_parts hs with ⟨hpre, hrest⟩
      have hguard : (c = '\\' &&
          decide (3 ≤ (rest.takeWhile (fun x => x = 'n')).length)) = false := by
        by_contra hg
        rw [Bool.not_eq_false, Bool.and_eq_true] at hg
        obtain ⟨hc, hlen⟩ := hg
        rw [decide_eq_true_iff] at hc hlen
        rcases takeWhile_three_n hlen with ⟨t, rfl⟩
        subst hc
        have hp : (['\\', 'n', 'n', 'n'] : List Char).isPrefixOf
            ('\\' :: 'n' :: 'n' :: 'n' :: t) = true := by
          simp [List.isPrefixOf]
        rw [hp] at hpre
        exact Bool.noConfusion hpre
      simp only [collapseGo, hguard, Bool.false_eq_true, if_false]
      rw [ih rest hrest]

theorem no_bsnnn : ∀ {ls : List (List Char)},
    (∀ l ∈ ls, l ≠ [] ∧ '\\' ∉ l ∧ (("nn").toList).isPrefixOf l = false) →
    ¬((['\\', 'n', 'n', 'n'] : List Char) <:+: joinLit ls) := by
  intro ls
  induction ls with
  | nil =>
    intro _ hc
    have := List.eq_nil_of_infix_nil hc
    simp at this
  | cons l ls2 ih =>
    intro h hc
    cases ls2 with
    | nil =>
      have : '\\' ∈ l := hc.sublist.mem (by decide)
      exact (h l (List.mem_cons_self _ _)).2.1 this
    | cons l2 ls3 =>
      rw [joinLit_cons_cons] at hc
      rcases infix_append_cases hc with h1 | h1 | ⟨m1, m2, hM, hm1, hs, _⟩
      · exact (h l (List.mem_cons_self _ _)).2.1 (h1.sublist.mem (by decide))
      · rw [List.infix_cons_iff] at h1
        rcases h1 with h2 | h2
        · rw [List.cons_prefix_cons] at h2
          obtain ⟨-, h2⟩ := h2
          rw [List.cons_prefix_cons] at h2
          obtain ⟨-, h2⟩ := h2
          cases ls3 with
          | nil =>
            have hp : (("nn").toList).isPrefixOf l2 = true :=
              List.isPrefixOf_iff_prefix.2 h2
            have hf := (h l2 (by simp)).2.2
            rw [hp] at hf
            exact Bool.noConfusion hf
          | cons l3 ls4 =>
            rw [joinLit_cons_cons] at h2
            rcases prefix_append_cases h2 with h3 | ⟨m2, hm2eq, h4⟩
            · have hp : (("nn").toList).isPrefixOf l2 = true :=
                List.isPrefixOf_iff_prefix.2 h3
              have hf := (h l2 (by simp)).2.2
              rw [hp] at hf
              exact Bool.noConfusion hf
            · have hne2 : l2 ≠ [] := (h l2 (by simp)).1
              cases l2 with
              | nil => exact hne2 rfl
              | cons a r =>
                cases r with
                | nil =>
                  simp only [List.cons_append, List.nil_append] at hm2eq
                  have ha : a = 'n' ∧ m2 = ['n'] := by
                    injection hm2eq with ha1 htl
                    exact ⟨ha1.symm, htl.symm⟩
                  rcases ha with ⟨-, rfl⟩
                  rw [List.cons_prefix_cons] at h4
                  exact absurd h4.1 (by decide)
                | cons b r2 =>
                  cases r2 with
                  | nil =>
                    have hab : a = 'n' ∧ b = 'n' := by
                      simp only [List.cons_append] at hm2eq
                      injection hm2eq with ha1 htl
                      injection htl with hb1 _
                      exact ⟨ha1.symm, hb1.symm⟩
                    have hp : (("nn").toList).isPrefixOf [a, b] = true := by
                      rw [hab.1, hab.2]
                      decide
                    have hf := (h [a, b] (by simp)).2.2
                    rw [hp] at hf
                    exact Bool.noConfusion hf
                  | cons e r3 =>
                    simp only [List.cons_append] at hm2eq
                    injection hm2eq with _ htl
                    injection htl with _ htl2
                    exact absurd htl2 (by simp)
        · rw [List.infix_cons_iff] at h2
          rcases h2 with h3 | h3
          · rw [List.cons_prefix_cons] at h3
            exact absurd h3.1 (by decide)
          · exact ih (fun m hm => h m (List.mem_cons.2 (Or.inr hm))) h3
      · have hmem : '\\' ∈ m1 := by
          cases m1 with
          | nil => exact absurd rfl hm1
          | cons a r =>
            rw [List.cons_append] at hM
            have ha : a = '\\' := by
              injection hM with h1 _
              exact h1.symm
            rw [ha]
            exact List.mem_cons_self _ _
        exact (h l (List.mem_cons_self _ _)).2.1 (hs.sublist.mem hmem)

/-!  ### Identity of the passes on marker-free text  -/

theorem stripFrontmatter_id {s : List Char}
    (h : ∀ l ∈ splitNl s, pyStrip l ≠ ("---").toList) :
    stripFrontmatter s = s := by
  unfold stripFrontmatter
  rw [if_neg (h _ (headD_mem (splitCh_ne_nil '\n' s)))]

theorem stripMetaLines_colonfree {s : List Char} (h : ':' ∉ s) :
    stripMetaLines s = joinLit (splitNl s) := by
  unfold stripMetaLines
  congr 1
  rw [List.filter_eq_self]
  intro l hl
  have hmeta : isMetaLine l = false := by
    unfold isMetaLine
    rw [Bool.or_eq_false_iff]
    constructor
    · by_contra hn
      rw [Bool.not_eq_false] at hn
      have hcl : ':' ∈ pyStrip l := isPrefixOf_mem hn (by decide)
      exact h (mem_of_mem_splitCh hl (mem_pyStrip hcl))
    · rw [List.any_eq_false]
      intro k hk
      intro hn
      have hcol : ':' ∈ k := by
        simp only [metaKeys, List.mem_cons, List.not_mem_nil, or_false] at hk
        rcases hk with rfl | rfl | rfl | rfl | rfl | rfl | rfl | rfl <;> decide
      exact h (mem_of_mem_splitCh hl (mem_pyStrip (isPrefixOf_mem hn hcol)))
  rw [hmeta]
  rfl

theorem fencesGo_id : ∀ (fuel : Nat) (s : List Char), backquote ∉ s →
    fencesGo fuel s = s := by
  intro fuel
  induction fuel with
  | zero => intro s _; rfl
  | succ fuel ih =>
    intro s hs
    cases s with
    | nil => rfl
    | cons c rest =>
      have hpre : fenceMark.isPrefixOf (c :: rest) = false := by
        by_contra hn
        rw [Bool.not_eq_false] at hn
        exact hs (isPrefixOf_mem hn (by decide))
      simp only [fencesGo, hpre, Bool.false_eq_true, if_false]
      rw [ih rest (fun hm => hs (List.mem_cons.2 (Or.inr hm)))]

theorem removeCodeFences_id {s : List Char} (h : backquote ∉ s) :
    removeCodeFences s = s := fencesGo_id _ s h

theorem inlineCodeGo_id : ∀ (fuel : Nat) (s : List Char), backquote ∉ s →
    inlineCodeGo fuel s = s := by
  intro fuel
  induction fuel with
  | zero => intro s _; rfl
  | succ fuel ih =>
    intro s hs
    cases s with
    | nil => rfl
    | cons c rest =>
      have hc : ¬c = backquote := fun hh => hs (hh ▸ List.mem_cons_self c rest)
      simp only [inlineCodeGo]
      rw [if_neg hc, ih rest (fun hm => hs (List.mem_cons.2 (Or.inr hm)))]

theorem unwrapInlineCode_id {s : List Char} (h : backquote ∉ s) :
    unwrapInlineCode s = s := inlineCodeGo_id _ s h

theorem macrosGo_id : ∀ (fuel : Nat) (s : List Char), ']' ∉ s →
    macrosGo fuel s = s := by
  intro fuel
  induction fuel with
  | zero => intro s _; rfl
  | succ fuel ih =>
    intro s hs
    match s with
    | [] => rfl
    | [c] =>
      show c :: macrosGo fuel [] = [c]
      rw [ih [] (by simp)]
    | [c, d] =>
      show c :: macrosGo fuel [d] = [c, d]
      rw [ih [d] (fun hm => hs (List.mem_cons.2 (Or.inr hm)))]
    | [c, d, e] =>
      show c :: macrosGo fuel [d, e] = [c, d, e]
      rw [ih [d, e] (fun hm => hs (List.mem_cons.2 (Or.inr hm)))]
    | c :: d :: e :: f :: t =>
      have hg : ¬(c = '\\' && macroClassChar d && e = '\\' && f = ']') = true := by
        intro hgt
        rw [Bool.and_eq_true, Bool.and_eq_true, Bool.and_eq_true] at hgt
        have hf : f = ']' := by
          have := hgt.2
          rwa [decide_eq_true_iff] at this
        exact hs (hf ▸ (by simp : f ∈ c :: d :: e :: f :: t))
      show macrosGo (fuel + 1) (c :: d :: e :: f :: t) = _
      simp only [macrosGo]
      rw [if_neg hg, ih (d :: e :: f :: t)
        (fun hm => hs (List.mem_cons.2 (Or.inr hm)))]

theorem removeMacros_id {s : List Char} (h : ']' ∉ s) :
    removeMacros s = s := macrosGo_id _ s h

theorem serviceGo_id : ∀ (fuel : Nat) (s : List Char), '/' ∉ s →
    serviceGo fuel s = s := by
  intro fuel
  induction fuel with
  | zero => intro s _; rfl
  | succ fuel ih =>
    intro s hs
    cases s with
    | nil => rfl
    | cons c rest =>
      have hpre : (['/', '/', '/'] : List Char).isPrefixOf (c :: rest)
          = false := by
        by_contra hn
        rw [Bool.not_eq_false] at hn
        exact hs (isPrefixOf_mem hn (by decide))
      simp only [serviceGo, hpre, Bool.false_eq_true, if_false]
      rw [ih rest (fun hm => hs (List.mem_cons.2 (Or.inr hm)))]

theorem removeServiceBlocks_id {s : List Char} (h : '/' ∉ s) :
    removeServiceBlocks s = s := serviceGo_id _ s h

theorem commentsGo_id : ∀ (fuel : Nat) (s : List Char), '<' ∉ s →
    commentsGo fuel s = s := by
  intro fuel
  induction fuel with
  | zero => intro s _; rfl
  | succ fuel ih =>
    intro s hs
    cases s with
    | nil => rfl
    | cons c rest =>
      have hpre : (("<!--").toList).isPrefixOf (c :: rest) = false := by
        by_contra hn
        rw [Bool.not_eq_false] at hn
        exact hs (isPrefixOf_mem hn (by decide))
      simp only [commentsGo, hpre, Bool.false_eq_true, if_false]
      rw [ih rest (fun hm => hs (List.mem_cons.2 (Or.inr hm)))]

theorem removeHtmlComments_id {s : List Char} (h : '<' ∉ s) :
    removeHtmlComments s = s := commentsGo_id _ s h

theorem snippetsGo_id : ∀ (fuel : Nat) (s : List Char), '-' ∉ s →
    snippetsGo fuel s = s := by
  intro fuel
  induction fuel with
  | zero => intro s _; rfl
  | succ fuel ih =>
    intro s hs
    cases s with
    | nil => rfl
    | cons c rest =>
      have hpre : (("--8<--").toList).isPrefixOf (c :: rest) = false := by
        by_contra hn
        rw [Bool.not_eq_false] at hn
        exact hs (isPrefixOf_mem hn (by decide))
      simp only [snippetsGo, hpre, Bool.false_eq_true, if_false]
      rw [ih rest (fun hm => hs (List.mem_cons.2 (Or.inr hm)))]

theorem removeSnippets_id {s : List Char} (h : '-' ∉ s) :
    removeSnippets s = s := snippetsGo_id _ s h

theorem urlsGo_id : ∀ (fuel : Nat) (s : List Char), '/' ∉ s →
    urlsGo fuel s = s := by
  intro fuel
  induction fuel with
  | zero => intro s _; rfl
  | succ fuel ih =>
    intro s hs
    cases s with
    | nil => rfl
    | cons c rest =>
      have hpp : (("http://").toList).isPrefixOf (c :: rest) = false := by
        by_contra hn
        rw [Bool.not_eq_false] at hn
        exact hs (isPrefixOf_mem hn (by decide))
      have hps : (("https://").toList).isPrefixOf (c :: rest) = false := by
        by_contra hn
        rw [Bool.not_eq_false] at hn
        exact hs (isPrefixOf_mem hn (by decide))
      simp only [urlsGo, hpp, hps, Bool.false_eq_true, if_false]
      rw [ih rest (fun hm => hs (List.mem_cons.2 (Or.inr hm)))]

theorem removeUrls_id {s : List Char} (h : '/' ∉ s) :
    removeUrls s = s := urlsGo_id _ s h

theorem dropLinkDefLines_id {s : List Char} (h : '[' ∉ s) :
    dropLinkDefLines s = s := by
  unfold dropLinkDefLines
  have hfil : (splitLit s).filter (fun l => !isLinkDefLine l) = splitLit s := by
    rw [List.filter_eq_self]
    intro l hl
    have hld : isLinkDefLine l = false := by
      unfold isLinkDefLine
      have hhd : ((pyStrip l).head? = some '[' : Bool) = false := by
        rw [decide_eq_false_iff_not]
        intro hhead
        exact h (mem_of_mem_splitLit hl (mem_pyStrip (head?_mem hhead)))
      rw [hhd]
      rfl
    rw [hld]
    rfl
  rw [hfil]
  exact joinLit_splitLit s

theorem scanTablesGo_id : ∀ (fuel : Nat) (ls : List (List Char))
    (content : List Char) (acc : List (List Char × List Char)),
    (∀ l ∈ ls, pipeLine l = false) →
    scanTablesGo fuel ls content acc = (content, acc) := by
  intro fuel
  induction fuel with
  | zero => intro ls content acc _; rfl
  | succ fuel ih =>
    intro ls content acc h
    cases ls with
    | nil => rfl
    | cons l rest =>
      simp only [scanTablesGo, h l (List.mem_cons_self _ _),
        Bool.false_eq_true, if_false]
      exact ih rest content acc (fun m hm => h m (List.mem_cons.2 (Or.inr hm)))

theorem extractTables_nopipe {s : List Char} (h : '|' ∉ s) :
    extractTables s = (s, []) := by
  unfold extractTables
  apply scanTablesGo_id
  intro l hl
  unfold pipeLine
  rw [decide_eq_false_iff_not]
  intro hhead
  exact h (mem_of_mem_splitLit hl (mem_pyStrip (head?_mem hhead)))

theorem scanTablesGo_length : ∀ (fuel : Nat) (ls : List (List Char))
    (content : List Char) (acc : List (List Char × List Char)),
    (scanTablesGo fuel ls content acc).2.length
      = acc.length + numBlocksGo fuel ls := by
  intro fuel
  induction fuel with
  | zero => intro ls content acc; rfl
  | succ fuel ih =>
    intro ls content acc
    cases ls with
    | nil => rfl
    | cons l rest =>
      simp only [scanTablesGo, numBlocksGo]
      by_cases hp : pipeLine l = true
      · rw [if_pos hp, if_pos hp, ih]
        simp only [List.length_append, List.length_cons, List.length_nil]
        omega
      · rw [if_neg hp, if_neg hp]
        exact ih rest content acc

/-!  ### Structure of the formatter output  -/

theorem mem_tableLines_sub {t l : List Char} {c : Char}
    (hl : l ∈ tableLines t) (hc : c ∈ l) : c ∈ t := by
  unfold tableLines at hl
  rcases List.mem_filter.1 hl with ⟨hmem, _⟩
  rcases List.mem_map.1 hmem with ⟨l0, hl0, rfl⟩
  exact mem_pyStrip (mem_of_mem_splitLit hl0 (mem_pyStrip hc))

theorem headersOf_spec {t : List Char} :
    ∀ hd ∈ headersOf t, hd ≠ [] ∧ '|' ∉ hd := by
  intro hd hmem
  unfold headersOf at hmem
  rcases List.mem_filter.1 hmem with ⟨hmem2, hne⟩
  rcases List.mem_map.1 hmem2 with ⟨p, hp, rfl⟩
  refine ⟨by simpa using hne, ?_⟩
  intro hpipe
  have hp2 : p ∈ splitCh '|' (headerLineOf t) :=
    List.mem_of_mem_drop ((List.dropLast_sublist _).mem hp)
  exact not_mem_of_mem_splitCh hp2 (mem_pyStrip hpipe)

theorem rowCells_pipe_free {line : List Char} :
    ∀ cv ∈ rowCells line, '|' ∉ cv := by
  intro cv hmem
  unfold rowCells at hmem
  rcases List.mem_map.1 hmem with ⟨p, hp, rfl⟩
  intro hpipe
  have hp2 : p ∈ splitCh '|' line :=
    List.mem_of_mem_drop ((List.dropLast_sublist _).mem hp)
  exact not_mem_of_mem_splitCh hp2 (mem_pyStrip hpipe)

theorem rowParts_spec {headers : List (List Char)} {line : List Char}
    {parts : List (List Char)}
    (hh : ∀ hd ∈ headers, hd ≠ [] ∧ '|' ∉ hd)
    (hp : rowParts headers line = some parts) :
    parts ≠ [] ∧ ∀ p ∈ parts, p ≠ [] ∧ '|' ∉ p := by
  simp only [rowParts] at hp
  split at hp
  · split at hp
    · split at hp
      · exact Option.noConfusion hp
      · rename_i hne
        cases hp
        refine ⟨by simpa using hne, ?_⟩
        intro p hpmem
        rcases List.mem_filterMap.1 hpmem with ⟨ic, hicmem, hf⟩
        rcases enumSnd_mem hicmem with ⟨hcell, _⟩
        have hcellpf : '|' ∉ ic.2 := rowCells_pipe_free ic.2 hcell
        split at hf
        · exact Option.noConfusion hf
        · rename_i hcellne
          split at hf
          · rename_i hguard
            cases hf
            rw [Bool.and_eq_true] at hguard
            obtain ⟨hlt, hhe⟩ := hguard
            rw [decide_eq_true_iff] at hlt
            have hdmem : headers.getD ic.1 [] ∈ headers := by
              rw [List.getD_eq_getElem headers [] hlt]
              exact List.getElem_mem hlt
            rcases hh _ hdmem with ⟨_, hdpf⟩
            constructor
            · simp
            · intro hpipe
              rcases List.mem_append.1 hpipe with h1 | h1
              · exact hdpf h1
              · rcases List.mem_cons.1 h1 with h2 | h2
                · exact absurd h2.symm (by decide)
                · rcases List.mem_cons.1 h2 with h3 | h3
                  · exact absurd h3.symm (by decide)
                  · exact hcellpf h3
          · cases hf
            exact ⟨by simpa using hcellne, hcellpf⟩
    · exact Option.noConfusion hp
  · exact Option.noConfusion hp

theorem formattedRows_spec {t : List Char} :
    ∀ r ∈ formattedRowsOf t, r ≠ [] ∧ ∀ p ∈ r, p ≠ [] ∧ '|' ∉ p := by
  intro r hr
  unfold formattedRowsOf at hr
  rcases List.mem_filterMap.1 hr with ⟨line, _, hsome⟩
  exact rowParts_spec headersOf_spec hsome

theorem pipe_not_mem_tableFallback (t : List Char) :
    '|' ∉ tableFallback t := by
  intro h
  unfold tableFallback at h
  rcases List.mem_map.1 (mem_pyStrip h) with ⟨d, _, hd⟩
  unfold replacePipe at hd
  by_cases hdp : d = '|'
  · rw [if_pos hdp] at hd
    exact absurd hd (by decide)
  · rw [if_neg hdp] at hd
    exact hdp hd

theorem tableLines_eq_nil_iff {t : List Char} :
    tableLines t = [] ↔
      ∀ l ∈ splitLit (pyStrip t), ∀ c ∈ l, isSpace c = true := by
  unfold tableLines
  rw [List.filter_eq_nil_iff]
  constructor
  · intro h l hl c hc
    have h2 := h (pyStrip l) (List.mem_map.2 ⟨l, hl, rfl⟩)
    have h3 : pyStrip l = [] := by simpa using h2
    exact pyStrip_eq_nil_iff.1 h3 c hc
  · intro h m hm
    rcases List.mem_map.1 hm with ⟨l, hl, rfl⟩
    have h2 : pyStrip l = [] := pyStrip_eq_nil_iff.2 (h l hl)
    simp [h2]

theorem tableFallback_eq_nil_of_space_pipe {t : List Char}
    (h : ∀ c ∈ t, (isSpace c || c = '|') = true) : tableFallback t = [] := by
  unfold tableFallback
  rw [pyStrip_eq_nil_iff]
  intro c hc
  rcases List.mem_map.1 hc with ⟨d, hd, rfl⟩
  have hd2 := h d hd
  rw [Bool.or_eq_true] at hd2
  unfold replacePipe
  by_cases hdp : d = '|'
  · rw [if_pos hdp]
    decide
  · rw [if_neg hdp]
    rcases hd2 with h2 | h2
    · exact h2
    · rw [decide_eq_true_iff] at h2
      exact absurd h2 hdp

theorem char_space_of_tableFallback_nil {t : List Char}
    (h : tableFallback t = []) {c : Char} (hc : c ∈ t) (hnp : ¬c = '|') :
    isSpace c = true := by
  unfold tableFallback at h
  rw [pyStrip_eq_nil_iff] at h
  have hmem : replacePipe c ∈ t.map replacePipe := List.mem_map.2 ⟨c, hc, rfl⟩
  have h2 := h _ hmem
  unfold replacePipe at h2
  rw [if_neg hnp] at h2
  exact h2

theorem joinLit_formattedLines_ne_nil {t : List Char}
    (h : ¬(formattedLinesOf t).isEmpty = true) :
    joinLit (formattedLinesOf t) ≠ [] := by
  cases hr : formattedRowsOf t with
  | nil =>
    exfalso
    apply h
    unfold formattedLinesOf
    rw [hr]
    rfl
  | cons r rs =>
    unfold formattedLinesOf
    rw [hr, List.map_cons]
    refine joinLit_ne_nil ?_
    rcases formattedRows_spec r (hr ▸ List.mem_cons_self r rs) with ⟨hr0, hr1⟩
    exact joinSep_ne_nil hr0 (fun p hp => (hr1 p hp).1)

theorem format_nil_of_space_pipe {t : List Char}
    (h : ∀ c ∈ t, (isSpace c || c = '|') = true) :
    format_markdown_table t = [] := by
  have hbs : '\\' ∉ t := by
    intro hmem
    have h2 := h _ hmem
    exact absurd h2 (by decide)
  have hbs2 : '\\' ∉ pyStrip t := fun hm => hbs (mem_pyStrip hm)
  have hsl : splitLit (pyStrip t) = [pyStrip t] := splitLit_bs_free hbs2
  unfold format_markdown_table
  by_cases h1 : (tableLines t).length < 1
  · rw [if_pos h1]
  · rw [if_neg h1]
    have hemp : (pyStrip t).isEmpty = false := by
      by_contra hc
      rw [Bool.not_eq_false, List.isEmpty_iff] at hc
      apply h1
      unfold tableLines
      rw [hsl, hc]
      decide
    have htl : tableLines t = [pyStrip t] := by
      unfold tableLines
      rw [hsl]
      show ([pyStrip (pyStrip t)]).filter (fun l => !l.isEmpty) = _
      rw [pyStrip_idem]
      simp [hemp]
    have hdata : dataLinesOf t = [] := by
      unfold dataLinesOf
      rw [htl]
      rfl
    have hfl : formattedLinesOf t = [] := by
      unfold formattedLinesOf formattedRowsOf
      rw [hdata]
      rfl
    by_cases h2 : (headerLineOf t).head? = some '|'
    · have hb : (!((headerLineOf t).head? = some '|' : Bool)) = false := by
        simp [h2]
      rw [hb]
      simp only [Bool.false_eq_true, if_false, hfl]
      simpa using tableFallback_eq_nil_of_space_pipe h
    · have hb : (!((headerLineOf t).head? = some '|' : Bool)) = true := by
        simp [h2]
      rw [hb]
      simp only [if_pos]
      exact tableFallback_eq_nil_of_space_pipe h

/-!  ### Claim C3  -/

/-- C3: the spec's table — header line `| A | B |`, data row `| 1 | 2 |`,
with or without a separator line — only formats to `A: 1 | B: 2` when the
rows are separated by the literal two-character backslash-`n`.  When the
rows are separated by real newlines (an actual two-line table), the split
of line 176 finds a single "line", its first character is `|`, the row loop
produces nothing, and the formatter falls back to the pipe-replaced,
stripped original — the documented behaviour does not hold for real
multi-line tables. -/
theorem c3_two_column_row_divergence :
    format_markdown_table (("| A | B |\n| 1 | 2 |").toList)
        = ("A   B  \n  1   2").toList ∧
      format_markdown_table (("| A | B |\n|---|---|\n| 1 | 2 |").toList)
        = ("A   B  \n --- --- \n  1   2").toList ∧
      format_markdown_table (("| A | B |\\n| 1 | 2 |").toList)
        = ("A: 1 | B: 2").toList ∧
      format_markdown_table (("| A | B |\\n|---|---|\\n| 1 | 2 |").toList)
        = ("A: 1 | B: 2").toList :=
  ⟨by decide, by decide, by decide, by decide⟩

/-!  ### Claim C7  -/

/-- C7: a record is emitted exactly when the cleaned content is non-empty
and its trimmed length is strictly greater than 50; trimmed length exactly
50 is excluded and 51 is included. -/
theorem c7_emission_filter_boundary :
    (∀ c : List Char,
        shouldEmit c = true ↔ (c ≠ [] ∧ 50 < (pyStrip c).length)) ∧
      shouldEmit (List.replicate 50 'a') = false ∧
      shouldEmit (List.replicate 51 'a') = true := by
  refine ⟨?_, by decide, by decide⟩
  intro c
  unfold shouldEmit
  simp [List.isEmpty_iff]

/-!  ### Claim C5  -/

/-- C5 fails as stated: a first line `---` with surrounding whitespace is
stripped before comparison, so it does trigger frontmatter removal. -/
theorem c5_counterexample :
    ((splitNl ((" ---\ntitle: x\n---\nZ").toList)).headD []
        ≠ ("---").toList) ∧
      stripFrontmatter ((" ---\ntitle: x\n---\nZ").toList) = ("Z").toList ∧
      stripFrontmatter ((" ---\ntitle: x\n---\nZ").toList)
        ≠ (" ---\ntitle: x\n---\nZ").toList := by
  exact ⟨by decide, by decide, by decide⟩

/-- C5 (amended): frontmatter removal triggers exactly when the trimmed
first line is `---` (surrounding whitespace allowed); when the first line
does not trim to `---`, or when no later line trims to `---`, the content is
left completely untouched by this pass. -/
theorem c5_frontmatter_trigger_on_trimmed_marker :
    (∀ s : List Char, pyStrip ((splitNl s).headD []) ≠ ("---").toList →
        stripFrontmatter s = s) ∧
      ∀ s : List Char,
        (∀ l ∈ (splitNl s).drop 1, pyStrip l ≠ ("---").toList) →
        stripFrontmatter s = s := by
  constructor
  · intro s h
    unfold stripFrontmatter
    rw [if_neg h]
  · intro s h
    unfold stripFrontmatter
    by_cases h1 : pyStrip ((splitNl s).headD []) = ("---").toList
    · rw [if_pos h1]
      have h2 : ((splitNl s).drop 1).findIdx?
          (fun l => pyStrip l = ("---").toList) = none := by
        rw [List.findIdx?_eq_none_iff]
        intro l hl
        simp only [decide_eq_false_iff_not]
        exact h l hl
      rw [h2]
    · rw [if_neg h1]

/-- Witness for the C5 theorem at concrete inputs: a document whose first
line is not a trimmed `---`, and a document opening with `---` but with no
closing marker; both pass through untouched. -/
theorem c5_witness :
    stripFrontmatter (("abc\ndef").toList) = ("abc\ndef").toList ∧
      stripFrontmatter (("---\nopen text").toList) = ("---\nopen text").toList :=
  ⟨c5_frontmatter_trigger_on_trimmed_marker.1 (("abc\ndef").toList) (by decide),
   c5_frontmatter_trigger_on_trimmed_marker.2 (("---\nopen text").toList)
     (by decide)⟩

/-!  ### Claim C6  -/

/-- C6 fails as stated: on the input made of a space, a literal
backslash-`n` and a space, the split of line 176 leaves no non-blank lines,
so line 178 returns the empty string — not the pipe-replaced trimmed
original (which here is the two-character text backslash-`n`). -/
theorem c6_counterexample :
    formattedLinesOf ((" \\n ").toList) = [] ∧
      format_markdown_table ((" \\n ").toList) = [] ∧
      tableFallback ((" \\n ").toList) = ("\\n").toList ∧
      format_markdown_table ((" \\n ").toList)
        ≠ tableFallback ((" \\n ").toList) := by
  exact ⟨by decide, by decide, by decide, by decide⟩

/-- C6 (amended): when the split of line 176 leaves at least one non-blank
line, and the first such line does not start with `|` or no formatted rows
result, the formatter returns the original text with every `|` replaced by
a space and trimmed; when the split leaves no non-blank line (whitespace
and literal backslash-`n` only), the formatter instead returns the empty
string.  The embedded function is total, so no error is raised. -/
theorem c6_fallback_cases :
    (∀ t : List Char, tableLines t ≠ [] →
        ((headerLineOf t).head? ≠ some '|' ∨ formattedLinesOf t = []) →
        format_markdown_table t = tableFallback t) ∧
      ∀ t : List Char, tableLines t = [] → format_markdown_table t = [] := by
  constructor
  · intro t hne h
    unfold format_markdown_table
    have h1 : ¬(tableLines t).length < 1 := by
      intro hlt
      exact hne (List.length_eq_zero.1 (by omega))
    rw [if_neg h1]
    by_cases h2 : (headerLineOf t).head? = some '|'
    · have hb : (!((headerLineOf t).head? = some '|' : Bool)) = false := by
        simp [h2]
      rw [hb]
      simp only [Bool.false_eq_true, if_false]
      rcases h with h3 | h3
      · exact absurd h2 h3
      · rw [h3]
        rfl
    · have hb : (!((headerLineOf t).head? = some '|' : Bool)) = true := by
        simp [h2]
      rw [hb]
      rfl
  · intro t h
    unfold format_markdown_table
    rw [if_pos]
    rw [h]
    decide

/-- Witness for the C6 theorem: a pipe-free text block falls back to its
pipe-replaced stripped form, and a blank-splitting input returns empty. -/
theorem c6_witness :
    format_markdown_table (("plain text").toList)
        = tableFallback (("plain text").toList) ∧
      format_markdown_table ((" ").toList) = [] :=
  ⟨c6_fallback_cases.1 (("plain text").toList) (by decide)
     (Or.inl (by decide)),
   c6_fallback_cases.2 ((" ").toList) (by decide)⟩

/-!  ### Claim C1  -/

/-- C1 fails as stated: on a well-formed two-column table (with the literal
backslash-`n` row separator the formatter actually splits on) the output
`A: 1 | B: 2` contains a pipe character (the field separator). -/
theorem c1_counterexample :
    wfHeader (("| A | B |\\n| 1 | 2 |").toList) = true ∧
      '|' ∈ format_markdown_table (("| A | B |\\n| 1 | 2 |").toList) := by
  exact ⟨by decide, by decide⟩

/-- C1 (amended): when the header is well-formed, the formatter's output is
either pipe-free (the fallback and empty cases) or a literal-backslash-`n`
join of rows, each row a `" | "`-join of one or more non-empty pipe-free
fields, so pipe characters occur only as the literal `" | "` field
separator, never inside a label or a cell. -/
theorem c1_pipes_only_as_separators (t : List Char) (h : wfHeader t = true) :
    ('|' ∉ format_markdown_table t) ∨
      ∃ rows : List (List (List Char)),
        format_markdown_table t = joinLit (rows.map (joinSep sepBar)) ∧
          rows ≠ [] ∧ ∀ r ∈ rows, r ≠ [] ∧ ∀ p ∈ r, p ≠ [] ∧ '|' ∉ p := by
  unfold format_markdown_table
  by_cases h1 : (tableLines t).length < 1
  · rw [if_pos h1]
    exact Or.inl (by simp)
  · rw [if_neg h1]
    unfold wfHeader at h
    rw [Bool.and_eq_true, Bool.and_eq_true] at h
    rcases h with ⟨⟨hhead, _⟩, hne⟩
    rw [decide_eq_true_iff] at hhead
    have hb : (!((headerLineOf t).head? = some '|' : Bool)) = false := by
      simp [hhead]
    rw [hb]
    simp only [Bool.false_eq_true, if_false]
    by_cases h2 : (formattedLinesOf t).isEmpty = true
    · rw [if_pos h2]
      exact Or.inl (pipe_not_mem_tableFallback t)
    · rw [if_neg h2]
      refine Or.inr ⟨formattedRowsOf t, rfl, ?_, formattedRows_spec⟩
      intro hrows
      unfold formattedLinesOf at h2
      rw [hrows] at h2
      exact h2 rfl

/-- Witness for the C1 theorem at the two-column table: the header is
well-formed and the conclusion holds there. -/
theorem c1_witness :
    wfHeader (("| A | B |\\n| 1 | 2 |").toList) = true ∧
      (('|' ∉ format_markdown_table (("| A | B |\\n| 1 | 2 |").toList)) ∨
        ∃ rows : List (List (List Char)),
          format_markdown_table (("| A | B |\\n| 1 | 2 |").toList)
              = joinLit (rows.map (joinSep sepBar)) ∧
            rows ≠ [] ∧ ∀ r ∈ rows, r ≠ [] ∧ ∀ p ∈ r, p ≠ [] ∧ '|' ∉ p) :=
  ⟨by decide,
   c1_pipes_only_as_separators (("| A | B |\\n| 1 | 2 |").toList) (by decide)⟩

/-!  ### Claim C4  -/

/-- C4 fails as stated: the one-space input is non-empty but the formatter
returns the empty string (as it also does on the pipe-only input). -/
theorem c4_counterexample :
    (([' '] : List Char) ≠ []) ∧ format_markdown_table [' '] = [] ∧
      ((['|'] : List Char) ≠ []) ∧ format_markdown_table ['|'] = [] := by
  exact ⟨by decide, by decide, by decide, by decide⟩

/-- C4 (amended): the formatter returns the empty string exactly when every
literal-backslash-`n` piece of the stripped input is whitespace-only, or
every character of the input is whitespace or a pipe.  In particular the
non-empty inputs consisting of one space or one pipe yield empty output. -/
theorem c4_empty_iff_space_pipe (t : List Char) :
    format_markdown_table t = [] ↔
      ((∀ l ∈ splitLit (pyStrip t), ∀ c ∈ l, isSpace c = true) ∨
        ∀ c ∈ t, (isSpace c || c = '|') = true) := by
  constructor
  · intro hfmt
    unfold format_markdown_table at hfmt
    by_cases h1 : (tableLines t).length < 1
    · exact Or.inl (tableLines_eq_nil_iff.1 (List.length_eq_zero.1 (by omega)))
    · rw [if_neg h1] at hfmt
      refine Or.inr ?_
      intro c hc
      by_contra hcp
      rw [Bool.not_eq_true, Bool.or_eq_false_iff] at hcp
      rcases hcp with ⟨hsp, hpip⟩
      rw [decide_eq_false_iff_not] at hpip
      by_cases h2 : (headerLineOf t).head? = some '|'
      · have hb : (!((headerLineOf t).head? = some '|' : Bool)) = false := by
          simp [h2]
        rw [hb] at hfmt
        simp only [Bool.false_eq_true, if_false] at hfmt
        by_cases h3 : (formattedLinesOf t).isEmpty = true
        · rw [if_pos h3] at hfmt
          have h4 := char_space_of_tableFallback_nil hfmt hc hpip
          rw [h4] at hsp
          exact Bool.noConfusion hsp
        · rw [if_neg h3] at hfmt
          exact joinLit_formattedLines_ne_nil h3 hfmt
      · have hb : (!((headerLineOf t).head? = some '|' : Bool)) = true := by
          simp [h2]
        rw [hb] at hfmt
        simp only [if_pos] at hfmt
        have h4 := char_space_of_tableFallback_nil hfmt hc hpip
        rw [h4] at hsp
        exact Bool.noConfusion hsp
  · intro h
    rcases h with h | h
    · unfold format_markdown_table
      rw [if_pos]
      rw [tableLines_eq_nil_iff.2 h]
      decide
    · exact format_nil_of_space_pipe h

/-!  ### Claim C2  -/

/-- C2 fails as stated: on a document with two byte-identical table blocks
(the blocks and lines separated by the literal backslash-`n` that pass 13
splits on) the scan creates one placeholder per block (two in total, not
one), the second block is substituted as well (its occurrence of the block
text is the first remaining one), and no raw pipe text is left in the
extracted content or in the restored text. -/
theorem c2_counterexample :
    (extractTables (("a\\n|x|\\nb\\n|x|").toList)).2.length = 2 ∧
      (extractTables (("a\\n|x|\\nb\\n|x|").toList)).1
        = ("a\\n__TABLE_PLACEHOLDER_0__\\nb\\n__TABLE_PLACEHOLDER_1__").toList ∧
      restorePlaceholders (extractTables (("a\\n|x|\\nb\\n|x|").toList)).2
          (extractTables (("a\\n|x|\\nb\\n|x|").toList)).1
        = ("a\\nx\\nb\\nx").toList ∧
      ('|' ∉ restorePlaceholders (extractTables (("a\\n|x|\\nb\\n|x|").toList)).2
          (extractTables (("a\\n|x|\\nb\\n|x|").toList)).1) := by
  exact ⟨by decide, by decide, by decide, by decide⟩

/-- C2 (amended): every table block gets its own fresh ordinal placeholder —
for every document, the placeholder mapping has exactly one entry per table
block among the literal-backslash-`n` pieces — so two byte-identical blocks
yield two placeholders, not one; and on a concrete document with two
identical blocks both are substituted, with no raw pipe text leaking into
the restored text. -/
theorem c2_placeholder_per_block :
    (∀ content : List Char,
        (extractTables content).2.length = numBlocks content) ∧
      numBlocks (("a\\n|x|\\nb\\n|x|").toList) = 2 ∧
      restorePlaceholders (extractTables (("a\\n|x|\\nb\\n|x|").toList)).2
          (extractTables (("a\\n|x|\\nb\\n|x|").toList)).1
        = ("a\\nx\\nb\\nx").toList := by
  refine ⟨?_, by decide, by decide⟩
  intro content
  unfold extractTables numBlocks
  rw [scanTablesGo_length]
  simp

/-!  ### Claim C8  -/

/-- C8 fails as stated: the placeholder token is a fixed string, not
guaranteed absent from real content.  A document that literally contains
`__TABLE_PLACEHOLDER_0__` alongside a real table has that original text
rewritten by restoration: the token is present in the input, and after
extraction and restoration no occurrence of it remains. -/
theorem c8_counterexample :
    isSubstr (placeholderTok 0)
        (("__TABLE_PLACEHOLDER_0__ hello\\n| h |\\n| v |").toList) = true ∧
      restorePlaceholders
          (extractTables
            (("__TABLE_PLACEHOLDER_0__ hello\\n| h |\\n| v |").toList)).2
          (extractTables
            (("__TABLE_PLACEHOLDER_0__ hello\\n| h |\\n| v |").toList)).1
        = ("h: v hello\\nh: v").toList ∧
      isSubstr (placeholderTok 0)
        (restorePlaceholders
          (extractTables
            (("__TABLE_PLACEHOLDER_0__ hello\\n| h |\\n| v |").toList)).2
          (extractTables
            (("__TABLE_PLACEHOLDER_0__ hello\\n| h |\\n| v |").toList)).1)
        = false := by
  exact ⟨by decide, by decide, by decide⟩

/-- C8 (amended): the placeholder token is the fixed ordinal string, with no
guarantee of absence from real content, and restoration replaces every
occurrence of it: on the document below the extracted content holds two
occurrences of the token — one from the document's own text, one standing
for the table — and restoration rewrites both to the formatted table text. -/
theorem c8_restoration_rewrites_literal_token :
    (extractTables
        (("__TABLE_PLACEHOLDER_0__ hello\\n| h |\\n| v |").toList)).1
      = ("__TABLE_PLACEHOLDER_0__ hello\\n__TABLE_PLACEHOLDER_0__").toList ∧
    (extractTables
        (("__TABLE_PLACEHOLDER_0__ hello\\n| h |\\n| v |").toList)).2
      = [(placeholderTok 0, ("h: v").toList)] ∧
    restorePlaceholders [(placeholderTok 0, ("h: v").toList)]
        (("__TABLE_PLACEHOLDER_0__ hello\\n__TABLE_PLACEHOLDER_0__").toList)
      = ("h: v hello\\nh: v").toList := by
  exact ⟨by decide, by decide, by decide⟩

/-!  ### Claim C9: the pipeline on plain-line text  -/

theorem plainChar_not_mem {y : List Char}
    (hy : ∀ c ∈ y, plainChar c = true ∨ c = '\\') {d : Char}
    (hd : plainChar d = false) (hdb : ¬d = '\\') : d ∉ y := by
  intro hmem
  rcases hy d hmem with h1 | h1
  · rw [hd] at h1
    exact Bool.noConfusion h1
  · exact hdb h1

theorem plainLines_pieces {x : List Char} (h : PlainLines x) :
    ∀ l ∈ splitNl x, l ≠ [] ∧ pyStrip l = l ∧ '\\' ∉ l ∧
      (("nn").toList).isPrefixOf l = false := by
  intro l hl
  refine ⟨(h l hl).1, (h l hl).2.1, ?_, (h l hl).2.2.2⟩
  intro hm
  have h2 := (h l hl).2.2.1 '\\' hm
  exact absurd h2 (by decide)

theorem plain_not_mem_doc {x : List Char} (h : PlainLines x) {d : Char}
    (hd : plainChar d = false) (hdn : ¬d = '\n') : d ∉ x := by
  intro hmem
  rcases mem_splitCh_cover hmem with h1 | ⟨l, hl, hcl⟩
  · exact hdn h1
  · have h2 := (h l hl).2.2.1 d hcl
    rw [hd] at h2
    exact Bool.noConfusion h2

theorem LChars {x : List Char} (h : PlainLines x) :
    ∀ c ∈ joinLit (splitNl x), plainChar c = true ∨ c = '\\' := by
  intro c hc
  rcases mem_joinSep hc with h1 | ⟨l, hl, hcl⟩
  · rcases List.mem_cons.1 h1 with rfl | h2
    · exact Or.inr rfl
    · have hn : c = 'n' := by simpa using h2
      exact Or.inl (by rw [hn]; decide)
  · exact Or.inl ((h l hl).2.2.1 c hcl)

theorem midPasses_fixed {y : List Char}
    (hy : ∀ c ∈ y, plainChar c = true ∨ c = '\\') :
    extractTables (dropLinkDefLines (unwrapRefLinks (unwrapMdLinks (removeUrls
      (removeSnippets (removeHtmlComments (removeServiceBlocks (removeMacros
        (unwrapInlineCode (removeCodeFences y)))))))))) = (y, []) := by
  have hbq : backquote ∉ y := plainChar_not_mem hy (by decide) (by decide)
  have hrb : ']' ∉ y := plainChar_not_mem hy (by decide) (by decide)
  have hsl : '/' ∉ y := plainChar_not_mem hy (by decide) (by decide)
  have hlt : '<' ∉ y := plainChar_not_mem hy (by decide) (by decide)
  have hda : '-' ∉ y := plainChar_not_mem hy (by decide) (by decide)
  have hlb : '[' ∉ y := plainChar_not_mem hy (by decide) (by decide)
  have hpi : '|' ∉ y := plainChar_not_mem hy (by decide) (by decide)
  rw [removeCodeFences_id hbq, unwrapInlineCode_id hbq, removeMacros_id hrb,
    removeServiceBlocks_id hsl, removeHtmlComments_id hlt,
    removeSnippets_id hda, removeUrls_id hsl]
  show extractTables (dropLinkDefLines y) = (y, [])
  rw [dropLinkDefLines_id hlb]
  exact extractTables_nopipe hpi

theorem finalCleanup_L {x : List Char} (h : PlainLines x) :
    finalCleanup (joinLit (splitNl x)) = joinLit (splitNl x) := by
  have hy := LChars h
  have hnl : '\n' ∉ joinLit (splitNl x) :=
    plainChar_not_mem hy (by decide) (by decide)
  have hpieces := plainLines_pieces h
  obtain ⟨l0, ls0, hsp⟩ : ∃ l0 ls0, splitNl x = l0 :: ls0 := by
    cases hsp : splitNl x with
    | nil => exact absurd hsp (splitCh_ne_nil '\n' x)
    | cons a b => exact ⟨a, b, rfl⟩
  have hne : joinLit (splitNl x) ≠ [] := by
    rw [hsp]
    exact joinLit_ne_nil (hpieces l0 (hsp ▸ List.mem_cons_self l0 ls0)).1
  have hstrip : pyStrip (joinLit (splitNl x)) = joinLit (splitNl x) :=
    joinLit_strip_fixed (fun l hl => ⟨(hpieces l hl).1, (hpieces l hl).2.1⟩)
  have hsub : isSubstr (['\\', 'n', 'n', 'n']) (joinLit (splitNl x))
      = false := by
    by_contra hc
    rw [Bool.not_eq_false, isSubstr_true_iff] at hc
    exact no_bsnnn (fun l hl =>
      ⟨(hpieces l hl).1, (hpieces l hl).2.2.1, (hpieces l hl).2.2.2⟩) hc
  unfold finalCleanup
  rw [show splitNl (joinLit (splitNl x)) = [joinLit (splitNl x)] from
    splitCh_sep_free hnl]
  rw [List.map_cons, List.map_nil, hstrip]
  rw [List.filter_cons_of_pos (by simp [List.isEmpty_iff, hne]),
    List.filter_nil]
  show pyStrip (collapseNewlines (joinLit [joinLit (splitNl x)])) = _
  have hjs : joinLit [joinLit (splitNl x)] = joinLit (splitNl x) := rfl
  rw [hjs]
  show pyStrip (collapseGo ((joinLit (splitNl x)).length + 1)
    (joinLit (splitNl x))) = _
  rw [collapseGo_id _ _ hsub]
  exact hstrip

theorem nf_plain {x : List Char} (h : PlainLines x) :
    extract_text_from_markdown x = joinLit (splitNl x) := by
  have hy := LChars h
  have hcolon : ':' ∉ x := plain_not_mem_doc h (by decide) (by decide)
  show normalizeDoc mdRender x = _
  show finalCleanup (restorePlaceholders
      (extractTables (dropLinkDefLines (unwrapRefLinks (unwrapMdLinks
        (removeUrls (removeSnippets (removeHtmlComments (removeServiceBlocks
          (removeMacros (unwrapInlineCode (removeCodeFences
            (stripMetaLines (stripFrontmatter x))))))))))))).2
      (mdRender (extractTables (dropLinkDefLines (unwrapRefLinks (unwrapMdLinks
        (removeUrls (removeSnippets (removeHtmlComments (removeServiceBlocks
          (removeMacros (unwrapInlineCode (removeCodeFences
            (stripMetaLines (stripFrontmatter x))))))))))))).1))
    = joinLit (splitNl x)
  have hp1 : ∀ l ∈ splitNl x, pyStrip l ≠ ("---").toList := by
    intro l hl
    rw [(h l hl).2.1]
    intro he
    have hm : '-' ∈ l := by
      rw [he]
      decide
    have h2 := (h l hl).2.2.1 '-' hm
    exact absurd h2 (by decide)
  rw [stripFrontmatter_id hp1, stripMetaLines_colonfree hcolon,
    midPasses_fixed hy]
  show finalCleanup (restorePlaceholders []
    (mdRender (joinLit (splitNl x)))) = _
  exact finalCleanup_L h

theorem nfL_fixed {x : List Char} (h : PlainLines x) :
    extract_text_from_markdown (joinLit (splitNl x))
      = joinLit (splitNl x) := by
  have hy := LChars h
  have hnl : '\n' ∉ joinLit (splitNl x) :=
    plainChar_not_mem hy (by decide) (by decide)
  have hsplitL : splitNl (joinLit (splitNl x)) = [joinLit (splitNl x)] :=
    splitCh_sep_free hnl
  have hpieces := plainLines_pieces h
  have hstripL : pyStrip (joinLit (splitNl x)) = joinLit (splitNl x) :=
    joinLit_strip_fixed (fun l hl => ⟨(hpieces l hl).1, (hpieces l hl).2.1⟩)
  have hdash : '-' ∉ joinLit (splitNl x) :=
    plainChar_not_mem hy (by decide) (by decide)
  have hcolon : ':' ∉ joinLit (splitNl x) :=
    plainChar_not_mem hy (by decide) (by decide)
  show normalizeDoc mdRender _ = _
  show finalCleanup (restorePlaceholders
      (extractTables (dropLinkDefLines (unwrapRefLinks (unwrapMdLinks
        (removeUrls (removeSnippets (removeHtmlComments (removeServiceBlocks
          (removeMacros (unwrapInlineCode (removeCodeFences
            (stripMetaLines (stripFrontmatter (joinLit (splitNl x))))))))))))))).2
      (mdRender (extractTables (dropLinkDefLines (unwrapRefLinks (unwrapMdLinks
        (removeUrls (removeSnippets (removeHtmlComments (removeServiceBlocks
          (removeMacros (unwrapInlineCode (removeCodeFences
            (stripMetaLines (stripFrontmatter (joinLit (splitNl x))))))))))))))).1))
    = joinLit (splitNl x)
  have hp1 : ∀ l ∈ splitNl (joinLit (splitNl x)),
      pyStrip l ≠ ("---").toList := by
    intro l hl
    rw [hsplitL] at hl
    have hl2 : l = joinLit (splitNl x) := by simpa using hl
    subst hl2
    rw [hstripL]
    intro he
    refine hdash ?_
    rw [he]
    decide
  rw [stripFrontmatter_id hp1, stripMetaLines_colonfree hcolon, hsplitL]
  have hjs : joinLit [joinLit (splitNl x)] = joinLit (splitNl x) := rfl
  rw [hjs, midPasses_fixed hy]
  show finalCleanup (restorePlaceholders []
    (mdRender (joinLit (splitNl x)))) = _
  exact finalCleanup_L h

/-- C9 fails as stated: the input `ti--8<--\"q"tle: y` (with a literal
backslash before the first double quote) has no frontmatter, no code
fences, no links and no tables, yet normalizing its normalized form gives
a different (empty) result: the snippet pass of line 79 matches
`--8<--\"q"` and splices the remaining text into the metadata-looking line
`title: y`, which the second run's metadata filter deletes. -/
theorem c9_counterexample :
    extract_text_from_markdown (extract_text_from_markdown
        (("ti--8<--\\\"q\"tle: y").toList)) = [] ∧
      extract_text_from_markdown (("ti--8<--\\\"q\"tle: y").toList)
        = ("title: y").toList ∧
      pyStrip ((splitNl (("ti--8<--\\\"q\"tle: y").toList)).headD [])
        ≠ ("---").toList ∧
      isSubstr fenceMark (("ti--8<--\\\"q\"tle: y").toList) = false ∧
      isSubstr (("](").toList) (("ti--8<--\\\"q\"tle: y").toList) = false ∧
      isSubstr (("http").toList) (("ti--8<--\\\"q\"tle: y").toList) = false ∧
      ((splitNl (("ti--8<--\\\"q\"tle: y").toList)).all
        (fun l => !pipeLine l)) = true := by
  exact ⟨by decide, by decide, by decide, by decide, by decide, by decide,
    by decide⟩

/-- C9 (amended): normalization is idempotent on plain-line text — each
real-newline line non-empty, trimmed, free of the letter pair `nn` at its
start, and made only of letters, spaces, commas and question marks (so no
marker of any pass occurs).  On such input one application only replaces
the real newlines with the literal backslash-`n` separator, and a second
application changes nothing.  (Idempotence fails without such marker
conditions; see the counterexample.) -/
theorem c9_idempotent_on_plain_lines (x : List Char) (h : PlainLines x) :
    extract_text_from_markdown (extract_text_from_markdown x)
      = extract_text_from_markdown x := by
  rw [nf_plain h]
  exact nfL_fixed h

/-- Witness for the C9 theorem at a concrete plain two-line text. -/
theorem c9_witness :
    extract_text_from_markdown (extract_text_from_markdown
        (("hello world\ngood day").toList))
      = extract_text_from_markdown (("hello world\ngood day").toList) :=
  c9_idempotent_on_plain_lines (("hello world\ngood day").toList) (by decide)

/-!  ### Claim C10  -/

/-- C10 fails as stated: on the input `a \nnnb` (a literal backslash before
three letter-`n` characters) the collapse pass of line 165 matches and its
replacement template inserts two real newline characters, so the returned
string contains a blank line and an interior line `a ` that differs from
its trimmed form. -/
theorem c10_counterexample :
    extract_text_from_markdown (("a \\nnnb").toList) = ("a \n\nb").toList ∧
      [] ∈ splitNl (extract_text_from_markdown (("a \\nnnb").toList)) ∧
      (("a ").toList) ∈ splitNl (extract_text_from_markdown
        (("a \\nnnb").toList)) ∧
      pyStrip (("a ").toList) ≠ ("a ").toList := by
  exact ⟨by decide, by decide, by decide, by decide⟩

/-- C10 (amended): for every render step and every input, the normalizer's
output as a whole carries no leading or trailing whitespace (it equals its
own trimmed form, by the final strip of line 169); but it is not
blank-line-free and its interior lines need not be trimmed, as the
counterexample shows. -/
theorem c10_output_outer_trimmed (render : List Char → List Char)
    (s : List Char) :
    pyStrip (normalizeDoc render s) = normalizeDoc render s := by
  unfold normalizeDoc finalCleanup
  exact pyStrip_idem _
